import Mathlib

/-!
# A bounded LRU cache (`lru_map`): embedding and verification

The C++ class `lru_map` couples two containers:

* `m_seq_store`, a `std::list` of `seq_node_t`, ordered from the most recently
  used slot (front) to the least recently used one (back); each slot holds an
  iterator `m_assoc_iter` into the associative store;
* `m_assoc_store`, a map from keys to `assoc_node_t`, which holds the value and
  an iterator `m_seq_iter` into the list.

The embedding keeps both containers and both families of cross references.
A container node has an address (a natural number); an iterator is
`Option Nat`, the address of the node it designates, with `none` for `end()`
and for a value-initialised iterator.  An iterator stays valid for as long as
its node is linked in its container, as it does for `std::list` and `std::map`
(a rehash of a hash map is not modelled: the class only ever uses the
iterators as node references).  Nothing in the class ever frees a node
(eviction reuses the list node and the map node), so a new node always gets an
address that no node of its container has.  Every use of an iterator that C++
leaves undefined (dereferencing `end()`, `front()` of an empty list, `splice`
of an iterator that designates no node) makes the operation return `none`.
-/

namespace LruCache

/-! ## Data model -/

/-- Node of the recency list `m_seq_store`: its own address and the member
`m_assoc_iter`, an iterator into the associative store. -/
structure seq_node_t where
  addr : Nat
  m_assoc_iter : Option Nat
deriving DecidableEq, Repr

/-- Mapped type of the associative store: the value and the member
`m_seq_iter`, an iterator into the recency list. -/
structure assoc_node_t (V : Type) where
  m_value : V
  m_seq_iter : Option Nat
deriving DecidableEq, Repr

/-- Node of the associative store `m_assoc_store`: its own address, the key
(`first`) and the mapped `assoc_node_t` (`second`). -/
structure map_node (K V : Type) where
  addr : Nat
  first : K
  second : assoc_node_t V
deriving DecidableEq, Repr

/-- The class `lru_map`: the three data members. -/
structure lru_map (K V : Type) where
  m_capacity : Nat
  m_seq_store : List seq_node_t
  m_assoc_store : List (map_node K V)
deriving DecidableEq, Repr

/-- Address given to a newly allocated node: one that none of the listed
addresses equals. -/
def fresh_addr (used : List Nat) : Nat :=
  used.foldr (fun a m => max (a + 1) m) 0

/-! ## The list container (`std::list<seq_node_t>`) -/

/-- The iterator `l.begin()`: the first node, or `end()` on an empty list. -/
def seq_begin (l : List seq_node_t) : Option Nat :=
  match l with
  | [] => none
  | n :: _ => some n.addr

/-- The iterator `--l.end()`: the last node. -/
def seq_last (l : List seq_node_t) : Option Nat :=
  match l with
  | [] => none
  | [n] => some n.addr
  | _ :: m :: r => seq_last (m :: r)

/-- Unlinks the node at address `a`: the node and the remaining list. -/
def seq_unlink (l : List seq_node_t) (a : Nat) : Option (seq_node_t × List seq_node_t) :=
  match l with
  | [] => none
  | n :: r =>
    if n.addr = a then some (n, r)
    else
      match seq_unlink r a with
      | none => none
      | some (x, r1) => some (x, n :: r1)

/-- The call `l.splice(l.begin(), l, it)`: the node `it` designates is relinked
at the front, the other nodes keep their order. -/
def splice_front (l : List seq_node_t) (it : Option Nat) : Option (List seq_node_t) :=
  match it with
  | none => none
  | some a =>
    match seq_unlink l a with
    | none => none
    | some (x, r) => some (x :: r)

/-- The call `l.push_front({})`: a new node with a value-initialised
`m_assoc_iter`. -/
def push_front (l : List seq_node_t) : List seq_node_t :=
  { addr := fresh_addr (l.map seq_node_t.addr), m_assoc_iter := none } :: l

/-- The assignment `l.front().m_assoc_iter = it`. -/
def set_front_assoc_iter (l : List seq_node_t) (it : Option Nat) : Option (List seq_node_t) :=
  match l with
  | [] => none
  | n :: r => some ({ n with m_assoc_iter := it } :: r)

/-! ## The associative container (`map_t<key_t, assoc_node_t>`) -/

variable {K V : Type} [DecidableEq K]

/-- The call `m.find(k)`: the node with key `k`, `none` for `m.end()`. -/
def map_find (m : List (map_node K V)) (k : K) : Option (map_node K V) :=
  match m with
  | [] => none
  | n :: r => if n.first = k then some n else map_find r k

/-- Dereferences a map iterator: the node it designates. -/
def map_deref (m : List (map_node K V)) (it : Option Nat) : Option (map_node K V) :=
  match it with
  | none => none
  | some a => m.find? (fun n => decide (n.addr = a))

/-- Removes the node at address `a` from the node list. -/
def map_unlink (m : List (map_node K V)) (a : Nat) :
    Option (map_node K V × List (map_node K V)) :=
  match m with
  | [] => none
  | n :: r =>
    if n.addr = a then some (n, r)
    else
      match map_unlink r a with
      | none => none
      | some (x, r1) => some (x, n :: r1)

/-- The call `m.extract(it)`: the node handle and the map without the node. -/
def map_extract (m : List (map_node K V)) (it : Option Nat) :
    Option (map_node K V × List (map_node K V)) :=
  match it with
  | none => none
  | some a => map_unlink m a

/-- The call `m.insert(std::move(nh)).position`: the node is linked in when its
key is new; otherwise the map is unchanged and the position is the node that
already has the key. -/
def map_insert (m : List (map_node K V)) (nh : map_node K V) :
    List (map_node K V) × Option Nat :=
  match map_find m nh.first with
  | some x => (m, some x.addr)
  | none => (nh :: m, some nh.addr)

/-- The call `m.emplace(k, val).first`: a new node is built and inserted. -/
def map_emplace (m : List (map_node K V)) (k : K) (val : assoc_node_t V) :
    List (map_node K V) × Option Nat :=
  map_insert m { addr := fresh_addr (m.map map_node.addr), first := k, second := val }

/-- Overwrites `m_value` of the node at address `a`. -/
def map_assign (m : List (map_node K V)) (a : Nat) (v : V) : Option (List (map_node K V)) :=
  match m with
  | [] => none
  | n :: r =>
    if n.addr = a then some ({ n with second := { n.second with m_value := v } } :: r)
    else
      match map_assign r a v with
      | none => none
      | some r1 => some (n :: r1)

/-! ## The class `lru_map` -/

namespace lru_map

/-- The constructor `lru_map(capacity)`: no check of the capacity. -/
def new (capacity : Nat) : lru_map K V :=
  { m_capacity := capacity, m_seq_store := [], m_assoc_store := [] }

/-- Reads through a `value_t*`, the address of the map node whose `m_value`
it points at (`none` is `nullptr`). -/
def load (s : lru_map K V) (e : Option Nat) : Option V :=
  match map_deref s.m_assoc_store e with
  | none => none
  | some n => some n.second.m_value

/-- Writes through a `value_t*`: the assignment `*e = v`. -/
def store (s : lru_map K V) (e : Option Nat) (v : V) : Option (lru_map K V) :=
  match e with
  | none => none
  | some a =>
    match map_assign s.m_assoc_store a v with
    | none => none
    | some m => some { s with m_assoc_store := m }

/-- The member `get`: the returned `value_t*` and the state afterwards. -/
def get (s : lru_map K V) (k : K) : Option (Option Nat × lru_map K V) :=
  match map_find s.m_assoc_store k with
  | some x =>
    -- relocate looked up element's seq to front
    if x.second.m_seq_iter ≠ seq_begin s.m_seq_store then
      match splice_front s.m_seq_store x.second.m_seq_iter with
      | none => none
      | some l => some (some x.addr, { s with m_seq_store := l })
    else some (some x.addr, s)
  | none => some (none, s)

/-- The private member `evict_put`. -/
def evict_put (s : lru_map K V) (k : K) (v : V) : Option (lru_map K V) :=
  -- relocate evictable element's sequence to front
  let relocated :=
    if s.m_seq_store.length > 1 then splice_front s.m_seq_store (seq_last s.m_seq_store)
    else some s.m_seq_store
  match relocated with
  | none => none
  | some [] => none
  | some (f :: r) =>
    -- extract the node to evict (now at front), and overwrite it
    match map_extract s.m_assoc_store f.m_assoc_iter with
    | none => none
    | some (nh, m) =>
      let nh1 := { nh with first := k }
      let nh2 := { nh1 with second := { m_value := v, m_seq_iter := seq_begin (f :: r) } }
      let ins := map_insert m nh2
      match set_front_assoc_iter (f :: r) ins.2 with
      | none => none
      | some l => some { s with m_seq_store := l, m_assoc_store := ins.1 }

/-- The member `put`. -/
def put (s : lru_map K V) (k : K) (v : V) : Option (lru_map K V) :=
  match get s k with
  | none => none
  | some (none, s1) =>
    if s1.m_assoc_store.length = s1.m_capacity then evict_put s1 k v
    else
      let l1 := push_front s1.m_seq_store
      let ins := map_emplace s1.m_assoc_store k { m_value := v, m_seq_iter := seq_begin l1 }
      match set_front_assoc_iter l1 ins.2 with
      | none => none
      | some l2 => some { s1 with m_seq_store := l2, m_assoc_store := ins.1 }
  | some (some a, s1) => store s1 (some a) v

/-- The loop of `operator<<`: `sep` is the flag, `os` the text written so far. -/
def dump_loop (show_k : K → String) (show_v : V → String) (m : List (map_node K V))
    (l : List seq_node_t) (sep : Bool) (os : String) : Option String :=
  match l with
  | [] => some os
  | x :: r =>
    match map_deref m x.m_assoc_iter with
    | none => none
    | some n =>
      let os1 := if sep then os ++ "," else os
      let os2 := os1 ++ "\x7b" ++ show_k n.first ++ "," ++ show_v n.second.m_value ++ "\x7d"
      dump_loop show_k show_v m r true os2

/-- The friend `operator<<`, the debug dump, written to an empty stream. -/
def dump (show_k : K → String) (show_v : V → String) (s : lru_map K V) : Option String :=
  dump_loop show_k show_v s.m_assoc_store s.m_seq_store false ""

end lru_map

/-! ## Observations, calls and reachable states -/

/-- The (key, value) pairs that the slots of `l` designate in the node list
`m`, front to back: what a traversal of the recency list reads. -/
def entries_of (m : List (map_node K V)) (l : List seq_node_t) : Option (List (K × V)) :=
  match l with
  | [] => some []
  | x :: r =>
    match map_deref m x.m_assoc_iter with
    | none => none
    | some n =>
      match entries_of m r with
      | none => none
      | some es => some ((n.first, n.second.m_value) :: es)

namespace lru_map

/-- The recency sequence of a cache as (key, value) pairs, front to back. -/
def entries (s : lru_map K V) : Option (List (K × V)) :=
  entries_of s.m_assoc_store s.m_seq_store

/-- Whether `k` is a live key: `m_assoc_store.find(k) != m_assoc_store.end()`. -/
def contains (s : lru_map K V) (k : K) : Bool :=
  (map_find s.m_assoc_store k).isSome

end lru_map

/-- A call on the cache. -/
inductive op (K V : Type) where
  | put (k : K) (v : V)
  | get (k : K)
deriving DecidableEq, Repr

/-- Executes one call; the pointer `get` returns is dropped. -/
def step (s : lru_map K V) (o : op K V) : Option (lru_map K V) :=
  match o with
  | op.put k v => lru_map.put s k v
  | op.get k =>
    match lru_map.get s k with
    | none => none
    | some (_, s1) => some s1

/-- Executes a sequence of calls, first call first. -/
def run (s : lru_map K V) (ops : List (op K V)) : Option (lru_map K V) :=
  match ops with
  | [] => some s
  | o :: r =>
    match step s o with
    | none => none
    | some s1 => run s1 r

/-- The states a cache constructed with capacity `c` reaches by `put` and
`get` calls. -/
inductive Reachable (c : Nat) : lru_map K V → Prop where
  | init : Reachable c (lru_map.new c)
  | put (s s1 : lru_map K V) (k : K) (v : V) :
      Reachable c s → lru_map.put s k v = some s1 → Reachable c s1
  | get (s s1 : lru_map K V) (k : K) (e : Option Nat) :
      Reachable c s → lru_map.get s k = some (e, s1) → Reachable c s1

/-- One cache entry of the representation: the addresses of its list node and
of its map node, its key and its value. -/
structure cell (K V : Type) where
  slot : Nat
  node : Nat
  key : K
  val : V

/-- The list node of a cell. -/
def cell.seq (c : cell K V) : seq_node_t :=
  { addr := c.slot, m_assoc_iter := some c.node }

/-- The map node of a cell. -/
def cell.assoc (c : cell K V) : map_node K V :=
  { addr := c.node, first := c.key, second := { m_value := c.val, m_seq_iter := some c.slot } }

/-- The (key, value) pair of a cell. -/
def cell.kv (c : cell K V) : K × V := (c.key, c.val)

/-- The state `s` is represented by the cells `l`: the recency list is the
list nodes of `l` in order, the associative store holds the map nodes of `l`
in some order, and addresses and keys are pairwise distinct. -/
structure Rep (s : lru_map K V) (l : List (cell K V)) : Prop where
  seq : s.m_seq_store = l.map cell.seq
  assoc : s.m_assoc_store.Perm (l.map cell.assoc)
  slots : (l.map cell.slot).Nodup
  nodes : (l.map cell.node).Nodup
  keys : (l.map cell.key).Nodup

/-- The node `n` with its value replaced by `v` when its address is `a`. -/
def set_value (a : Nat) (v : V) (n : map_node K V) : map_node K V :=
  if n.addr = a then { n with second := { n.second with m_value := v } } else n

/-- The recency sequence after `put k v` on the sequence `es` of a cache of
capacity `cap`, as the three branches of `put` leave it. -/
def put_entries (cap : Nat) (es : List (K × V)) (k : K) (v : V) : List (K × V) :=
  if k ∈ es.map Prod.fst then (k, v) :: es.filter (fun e => decide (e.1 ≠ k))
  else if es.length = cap then (k, v) :: es.dropLast
  else (k, v) :: es

/-- The state of a cache of capacity 2 after `put(1, 10)`. -/
def state_one : lru_map Nat Nat :=
  { m_capacity := 2
    m_seq_store := [seq_node_t.mk 0 (some 0)]
    m_assoc_store := [map_node.mk 0 1 (assoc_node_t.mk 10 (some 0))] }

/-- The state of a cache of capacity 2 after `put(1, 10)` and `put(2, 20)`. -/
def state_two : lru_map Nat Nat :=
  { m_capacity := 2
    m_seq_store := [seq_node_t.mk 1 (some 1), seq_node_t.mk 0 (some 0)]
    m_assoc_store := [map_node.mk 1 2 (assoc_node_t.mk 20 (some 1)),
                      map_node.mk 0 1 (assoc_node_t.mk 10 (some 0))] }

/-- The text of one entry in the debug dump: `{key,value}`. -/
def render (show_k : K → String) (show_v : V → String) (e : K × V) : String :=
  "\x7b" ++ show_k e.1 ++ "," ++ show_v e.2 ++ "\x7d"

/-- The key a call touches when it is executed in state `s`: a `put` touches
its key, a `get` touches its key when it returns a non-null pointer. -/
def touched (s : lru_map K V) (o : op K V) : Option K :=
  match o with
  | op.put k _ => some k
  | op.get k =>
    match s.get k with
    | some (some _, _) => some k
    | _ => none

/-- The calls `ops` are numbered `i`, `i + 1`, ... and executed from state
`s`: the number of the last call that touches `k`, and 0 when no call does. -/
def last_touch_from (i : Nat) (s : lru_map K V) (ops : List (op K V)) (k : K) : Nat :=
  match ops with
  | [] => 0
  | o :: r =>
    let later :=
      match step s o with
      | none => 0
      | some s1 => last_touch_from (i + 1) s1 r k
    if later ≠ 0 then later else if touched s o = some k then i else 0

/-- The time of the last touch of `k` in the calls `ops` on a new cache of
capacity `c`, the calls being numbered from 1; 0 when `k` was never touched. -/
def last_touch (c : Nat) (ops : List (op K V)) (k : K) : Nat :=
  last_touch_from 1 (lru_map.new c) ops k

/-! ## The naive cache of the specification, call traces -/

/-- The naive cache of the specification: its state is the recency sequence of
(key, value) pairs alone.  The value stored under `k`, if any. -/
def naive_lookup (es : List (K × V)) (k : K) : Option V :=
  match es with
  | [] => none
  | e :: r => if e.1 = k then some e.2 else naive_lookup r k

/-- Naive cache: frees the entry of key `k`. -/
def naive_erase (es : List (K × V)) (k : K) : List (K × V) :=
  match es with
  | [] => []
  | e :: r => if e.1 = k then r else e :: naive_erase r k

/-- Naive cache, `get`: not found when the key is absent; otherwise the entry
moves to the front and its value is returned. -/
def naive_get (es : List (K × V)) (k : K) : Option V × List (K × V) :=
  match naive_lookup es k with
  | none => (none, es)
  | some v => (some v, (k, v) :: naive_erase es k)

/-- Naive cache, `put`: a present key gets the new value and moves to the
front; an absent key is inserted at the front when the entry count is below
the capacity; otherwise the tail entry is erased and a freshly allocated entry
is inserted at the front. -/
def naive_put (cap : Nat) (es : List (K × V)) (k : K) (v : V) : List (K × V) :=
  match naive_lookup es k with
  | some _ => (k, v) :: naive_erase es k
  | none => if es.length < cap then (k, v) :: es else (k, v) :: es.dropLast

/-- Naive cache: what a sequence of calls shows after each call, namely the
result of the call (the value found by a `get`; nothing for a `put` or a
`get` that does not find the key) and the recency sequence. -/
def naive_observe (cap : Nat) (es : List (K × V)) (ops : List (op K V)) :
    List (Option V × List (K × V)) :=
  match ops with
  | [] => []
  | op.put k v :: r => (none, naive_put cap es k v) :: naive_observe cap (naive_put cap es k v) r
  | op.get k :: r => naive_get es k :: naive_observe cap (naive_get es k).2 r

/-- Naive cache: the debug dump of a recency sequence. -/
def naive_dump (show_k : K → String) (show_v : V → String) (es : List (K × V)) : String :=
  String.intercalate "," (es.map (render show_k show_v))

/-- The result of `get` as the caller sees it: nothing for `nullptr`, else the
value read through the pointer. -/
def get_result (s : lru_map K V) (e : Option Nat) : Option (Option V) :=
  match e with
  | none => some none
  | some a =>
    match s.load (some a) with
    | none => none
    | some v => some (some v)

/-- What a sequence of calls on `lru_map` shows after each call: the result of
the call and the recency sequence read by a traversal. -/
def observe (s : lru_map K V) (ops : List (op K V)) :
    Option (List (Option V × List (K × V))) :=
  match ops with
  | [] => some []
  | op.put k v :: r =>
    match s.put k v with
    | none => none
    | some s1 =>
      match s1.entries, observe s1 r with
      | some es, some t => some ((none, es) :: t)
      | _, _ => none
  | op.get k :: r =>
    match s.get k with
    | none => none
    | some (e, s1) =>
      match get_result s1 e, s1.entries, observe s1 r with
      | some res, some es, some t => some ((res, es) :: t)
      | _, _, _ => none

/-- The value of the most recent `put` of key `k` in the calls `ops`, none
when `ops` has no `put` of `k`. -/
def last_put (ops : List (op K V)) (k : K) : Option V :=
  match ops with
  | [] => none
  | o :: r =>
    match last_put r k with
    | some v => some v
    | none =>
      match o with
      | op.put k1 v => if k1 = k then some v else none
      | op.get _ => none

/-- The key of a call. -/
def op.key (o : op K V) : K :=
  match o with
  | op.put k _ => k
  | op.get k => k

/-- The keys that the calls `ops`, executed from state `s`, touch, in call
order (a key touched several times is listed several times). -/
def touched_keys (s : lru_map K V) (ops : List (op K V)) : List K :=
  match ops with
  | [] => []
  | o :: r =>
    let rest :=
      match step s o with
      | none => []
      | some s1 => touched_keys s1 r
    match touched s o with
    | some k => k :: rest
    | none => rest

/-- The entry `(k, v)` is in the sequence `es`, and every key in front of
it is one of `seen`. -/
def front_keys_among (k : K) (v : V) (seen : List K) (es : List (K × V)) : Prop :=
  ∃ pre post, es = pre ++ (k, v) :: post ∧ ∀ x ∈ pre.map Prod.fst, x ∈ seen

/-- The state of a cache of capacity 1 after `put(1, 10)`. -/
def state_single : lru_map Nat Nat :=
  { m_capacity := 1
    m_seq_store := [seq_node_t.mk 0 (some 0)]
    m_assoc_store := [map_node.mk 0 1 (assoc_node_t.mk 10 (some 0))] }

/-! ## Container lemmas -/

theorem lt_fresh_addr (l : List Nat) : ∀ a ∈ l, a < fresh_addr l := by
  induction l with
  | nil => intro a h; cases h
  | cons b r ih =>
    intro a h
    simp only [fresh_addr, List.foldr_cons] at *
    rcases List.mem_cons.mp h with rfl | h
    · omega
    · have := ih a h
      omega

theorem fresh_addr_not_mem (l : List Nat) : fresh_addr l ∉ l :=
  fun h => Nat.lt_irrefl _ (lt_fresh_addr l _ h)

omit [DecidableEq K] in
theorem seq_unlink_cells (l1 l2 : List (cell K V)) (c : cell K V)
    (h : c.slot ∉ l1.map cell.slot) :
    seq_unlink ((l1 ++ c :: l2).map cell.seq) c.slot
      = some (c.seq, (l1 ++ l2).map cell.seq) := by
  induction l1 with
  | nil => simp [seq_unlink, cell.seq]
  | cons d r ih =>
    have hd : d.slot ≠ c.slot := by
      intro e; apply h; simp [e]
    have hr : c.slot ∉ r.map cell.slot := by
      intro e; apply h; simp only [List.map_cons, List.mem_cons]; right; exact e
    have := ih hr
    simp only [List.cons_append, List.map_cons, seq_unlink, List.append_eq]
    rw [if_neg (by simpa [cell.seq] using hd), this]

omit [DecidableEq K] in
theorem seq_last_cells (l1 : List (cell K V)) (c : cell K V) :
    seq_last ((l1 ++ [c]).map cell.seq) = some c.slot := by
  induction l1 with
  | nil => simp [seq_last, cell.seq]
  | cons d r ih =>
    cases r with
    | nil => simp [seq_last, cell.seq]
    | cons e r2 =>
      simp only [List.cons_append, List.map_cons, seq_last] at ih ⊢
      exact ih

theorem map_find_eq_none (m : List (map_node K V)) (k : K)
    (h : ∀ n ∈ m, n.first ≠ k) : map_find m k = none := by
  induction m with
  | nil => rfl
  | cons x r ih =>
    simp only [map_find]
    rw [if_neg (h x (List.mem_cons_self _ _))]
    exact ih (fun n hn => h n (List.mem_cons_of_mem _ hn))

theorem map_find_eq_some (m : List (map_node K V)) (n : map_node K V)
    (hm : (m.map map_node.first).Nodup) (hn : n ∈ m) : map_find m n.first = some n := by
  induction m with
  | nil => cases hn
  | cons x r ih =>
    simp only [List.map_cons, List.nodup_cons] at hm
    simp only [map_find]
    rcases List.mem_cons.mp hn with rfl | hr
    · simp
    · have : x.first ≠ n.first := by
        intro e; apply hm.1; rw [e]; exact List.mem_map_of_mem _ hr
      rw [if_neg this]
      exact ih hm.2 hr

theorem map_find_some_mem (m : List (map_node K V)) (k : K) (n : map_node K V)
    (h : map_find m k = some n) : n ∈ m ∧ n.first = k := by
  induction m with
  | nil => cases h
  | cons x r ih =>
    simp only [map_find] at h
    by_cases e : x.first = k
    · rw [if_pos e] at h
      cases h
      exact ⟨List.mem_cons_self _ _, e⟩
    · rw [if_neg e] at h
      exact ⟨List.mem_cons_of_mem _ (ih h).1, (ih h).2⟩

omit [DecidableEq K] in
theorem map_deref_eq_some (m : List (map_node K V)) (n : map_node K V)
    (hm : (m.map map_node.addr).Nodup) (hn : n ∈ m) : map_deref m (some n.addr) = some n := by
  induction m with
  | nil => cases hn
  | cons x r ih =>
    simp only [List.map_cons, List.nodup_cons] at hm
    simp only [map_deref, List.find?_cons]
    rcases List.mem_cons.mp hn with rfl | hr
    · simp
    · have : x.addr ≠ n.addr := by
        intro e; apply hm.1; rw [e]; exact List.mem_map_of_mem _ hr
      simp only [this, decide_False]
      exact ih hm.2 hr

omit [DecidableEq K] in
theorem map_unlink_perm (m : List (map_node K V)) (n : map_node K V)
    (hm : (m.map map_node.addr).Nodup) (hn : n ∈ m) :
    ∃ r, map_unlink m n.addr = some (n, r) ∧ m.Perm (n :: r) := by
  induction m with
  | nil => cases hn
  | cons x r ih =>
    simp only [List.map_cons, List.nodup_cons] at hm
    simp only [map_unlink]
    rcases List.mem_cons.mp hn with rfl | hr
    · exact ⟨r, by simp, List.Perm.refl _⟩
    · have : x.addr ≠ n.addr := by
        intro e; apply hm.1; rw [e]; exact List.mem_map_of_mem _ hr
      obtain ⟨r1, h1, h2⟩ := ih hm.2 hr
      refine ⟨x :: r1, ?_, ?_⟩
      · rw [if_neg this, h1]
      · exact (List.Perm.cons x h2).trans (List.Perm.swap n x r1)

omit [DecidableEq K] in
theorem map_assign_eq_map (m : List (map_node K V)) (a : Nat) (v : V)
    (hm : (m.map map_node.addr).Nodup) (ha : a ∈ m.map map_node.addr) :
    map_assign m a v = some (m.map (set_value a v)) := by
  induction m with
  | nil => cases ha
  | cons x r ih =>
    simp only [List.map_cons, List.nodup_cons] at hm
    simp only [map_assign, List.map_cons]
    by_cases e : x.addr = a
    · rw [if_pos e]
      have : r.map (set_value a v) = r := by
        conv_rhs => rw [← List.map_id r]
        apply List.map_congr_left
        intro y hy
        have : y.addr ≠ a := by
          intro e2; apply hm.1; rw [e, ← e2]; exact List.mem_map_of_mem _ hy
        simp [set_value, this]
      rw [this]
      simp [set_value, e]
    · rw [if_neg e]
      have har : a ∈ r.map map_node.addr := by
        simp only [List.map_cons, List.mem_cons] at ha
        rcases ha with h | h
        · exact absurd h.symm e
        · exact h
      rw [ih hm.2 har]
      simp [set_value, e]

/-! ## The representation is preserved by `get` and `put` -/

section rep
variable {s : lru_map K V} {l : List (cell K V)}

omit [DecidableEq K] in
theorem Rep.assoc_addr (h : Rep s l) :
    (s.m_assoc_store.map map_node.addr).Perm (l.map cell.node) := by
  have := h.assoc.map map_node.addr
  simpa [List.map_map, Function.comp_def, cell.assoc] using this

omit [DecidableEq K] in
theorem Rep.assoc_first (h : Rep s l) :
    (s.m_assoc_store.map map_node.first).Perm (l.map cell.key) := by
  have := h.assoc.map map_node.first
  simpa [List.map_map, Function.comp_def, cell.assoc] using this

omit [DecidableEq K] in
theorem Rep.seq_addr (h : Rep s l) : s.m_seq_store.map seq_node_t.addr = l.map cell.slot := by
  rw [h.seq]; simp [List.map_map, Function.comp_def, cell.seq]

omit [DecidableEq K] in
theorem Rep.assoc_addr_nodup (h : Rep s l) : (s.m_assoc_store.map map_node.addr).Nodup :=
  h.assoc_addr.nodup_iff.mpr h.nodes

omit [DecidableEq K] in
theorem Rep.assoc_first_nodup (h : Rep s l) : (s.m_assoc_store.map map_node.first).Nodup :=
  h.assoc_first.nodup_iff.mpr h.keys

omit [DecidableEq K] in
theorem Rep.mem_assoc (h : Rep s l) {c : cell K V} (hc : c ∈ l) : c.assoc ∈ s.m_assoc_store :=
  h.assoc.mem_iff.mpr (List.mem_map_of_mem _ hc)

omit [DecidableEq K] in
theorem Rep.length_assoc (h : Rep s l) : s.m_assoc_store.length = l.length := by
  rw [h.assoc.length_eq, List.length_map]

omit [DecidableEq K] in
theorem Rep.length_seq (h : Rep s l) : s.m_seq_store.length = l.length := by
  rw [h.seq, List.length_map]

theorem Rep.find_hit (h : Rep s l) {c : cell K V} (hc : c ∈ l) :
    map_find s.m_assoc_store c.key = some c.assoc :=
  map_find_eq_some s.m_assoc_store c.assoc h.assoc_first_nodup (h.mem_assoc hc)

theorem Rep.find_miss (h : Rep s l) {k : K} (hk : k ∉ l.map cell.key) :
    map_find s.m_assoc_store k = none := by
  apply map_find_eq_none
  intro n hn e
  apply hk
  rw [← e]
  exact h.assoc_first.mem_iff.mp (List.mem_map_of_mem _ hn)

omit [DecidableEq K] in
theorem Rep.deref (h : Rep s l) {c : cell K V} (hc : c ∈ l) :
    map_deref s.m_assoc_store (some c.node) = some c.assoc :=
  map_deref_eq_some s.m_assoc_store c.assoc h.assoc_addr_nodup (h.mem_assoc hc)

omit [DecidableEq K] in
theorem Rep.entries_of_sub (h : Rep s l) (l1 : List (cell K V)) (hs : ∀ c ∈ l1, c ∈ l) :
    entries_of s.m_assoc_store (l1.map cell.seq) = some (l1.map cell.kv) := by
  induction l1 with
  | nil => rfl
  | cons c r ih =>
    have h1 := h.deref (hs c (List.mem_cons_self _ _))
    have h2 := ih (fun d hd => hs d (List.mem_cons_of_mem _ hd))
    simp only [List.map_cons, entries_of]
    have e : c.seq.m_assoc_iter = some c.node := rfl
    rw [e, h1, h2]
    rfl

omit [DecidableEq K] in
theorem Rep.entries (h : Rep s l) : s.entries = some (l.map cell.kv) := by
  unfold lru_map.entries
  rw [h.seq]
  exact h.entries_of_sub l (fun _ hc => hc)

end rep

omit [DecidableEq K] in
theorem Rep.new (c : Nat) : Rep (lru_map.new c : lru_map K V) [] :=
  { seq := rfl, assoc := List.Perm.refl _, slots := List.nodup_nil, nodes := List.nodup_nil,
    keys := List.nodup_nil }

omit [DecidableEq K] in
theorem Rep.middle {s : lru_map K V} {l1 l2 : List (cell K V)} {c : cell K V}
    (h : Rep s (l1 ++ c :: l2)) (s1 : lru_map K V)
    (hseq : s1.m_seq_store = (c :: (l1 ++ l2)).map cell.seq)
    (hassoc : s1.m_assoc_store = s.m_assoc_store) : Rep s1 (c :: (l1 ++ l2)) := by
  have p : (l1 ++ c :: l2).Perm (c :: (l1 ++ l2)) := List.perm_middle
  exact
    { seq := hseq
      assoc := by rw [hassoc]; exact h.assoc.trans (p.map _)
      slots := (p.map _).nodup_iff.mp h.slots
      nodes := (p.map _).nodup_iff.mp h.nodes
      keys := (p.map _).nodup_iff.mp h.keys }

theorem get_hit {s : lru_map K V} {l1 l2 : List (cell K V)} {c : cell K V}
    (h : Rep s (l1 ++ c :: l2)) :
    ∃ s1, s.get c.key = some (some c.node, s1) ∧ Rep s1 (c :: (l1 ++ l2)) ∧
      s1.m_capacity = s.m_capacity ∧ s1.m_assoc_store = s.m_assoc_store ∧
      (l1 = [] → s1 = s) := by
  have hf := h.find_hit (c := c) (by simp)
  cases l1 with
  | nil =>
    refine ⟨s, ?_, h, rfl, rfl, fun _ => rfl⟩
    simp only [lru_map.get, hf]
    have : c.assoc.second.m_seq_iter = seq_begin s.m_seq_store := by
      rw [h.seq]; rfl
    rw [if_neg (by simp [this])]
    rfl
  | cons d r =>
    have hne : d.slot ≠ c.slot := by
      have := h.slots
      simp only [List.cons_append, List.map_cons, List.nodup_cons, List.map_append,
        List.mem_append, List.mem_cons] at this
      intro e
      exact this.1 (Or.inr (Or.inl e))
    have hnot : c.slot ∉ (d :: r).map cell.slot := by
      have := h.slots
      rw [List.map_append, List.map_cons] at this
      intro hm
      exact (List.nodup_append.mp this).2.2 hm (List.mem_cons_self _ _)
    have hu := seq_unlink_cells (d :: r) l2 c hnot
    refine ⟨{ s with m_seq_store := c.seq :: ((d :: r) ++ l2).map cell.seq }, ?_, ?_, rfl, rfl, ?_⟩
    · simp only [lru_map.get, hf]
      have hb : seq_begin s.m_seq_store = some d.slot := by rw [h.seq]; rfl
      have hi : c.assoc.second.m_seq_iter = some c.slot := rfl
      rw [hb, hi, if_pos (by simpa using hne.symm)]
      simp only [splice_front]
      rw [h.seq, hu]
      rfl
    · exact h.middle _ rfl rfl
    · intro e; cases e

theorem get_miss {s : lru_map K V} {l : List (cell K V)} (h : Rep s l) {k : K}
    (hk : k ∉ l.map cell.key) : s.get k = some (none, s) := by
  simp only [lru_map.get, h.find_miss hk]

theorem put_hit {s : lru_map K V} {l1 l2 : List (cell K V)} {c : cell K V}
    (h : Rep s (l1 ++ c :: l2)) (v : V) :
    ∃ s1, s.put c.key v = some s1 ∧ Rep s1 ({ c with val := v } :: (l1 ++ l2)) ∧
      s1.m_capacity = s.m_capacity := by
  obtain ⟨s0, hg, hr, hcap, -, -⟩ := get_hit h
  have hnd := hr.assoc_addr_nodup
  have hmem : c.node ∈ s0.m_assoc_store.map map_node.addr :=
    hr.assoc_addr.mem_iff.mpr (by simp)
  have ha := map_assign_eq_map s0.m_assoc_store c.node v hnd hmem
  refine ⟨{ s0 with m_assoc_store := s0.m_assoc_store.map (set_value c.node v) }, ?_, ?_, hcap⟩
  · simp only [lru_map.put, hg, lru_map.store, ha]
  · have hnodes := hr.nodes
    simp only [List.map_cons, List.nodup_cons] at hnodes
    have hfix : (l1 ++ l2).map (fun d => set_value c.node v d.assoc) = (l1 ++ l2).map cell.assoc := by
      apply List.map_congr_left
      intro d hd
      have : d.node ≠ c.node := by
        intro e; apply hnodes.1; rw [← e]; exact List.mem_map_of_mem _ hd
      simp [set_value, cell.assoc, this]
    exact
      { seq := hr.seq
        assoc := by
          have := hr.assoc.map (set_value c.node v)
          simp only [List.map_cons, List.map_map, Function.comp_def] at this
          rw [hfix] at this
          simpa [set_value, cell.assoc] using this
        slots := hr.slots
        nodes := hr.nodes
        keys := hr.keys }

theorem put_push {s : lru_map K V} {l : List (cell K V)} (h : Rep s l) {k : K} (v : V)
    (hk : k ∉ l.map cell.key) (hcap : l.length ≠ s.m_capacity) :
    ∃ s1 a b, s.put k v = some s1 ∧ Rep s1 ({ slot := a, node := b, key := k, val := v } :: l) ∧
      s1.m_capacity = s.m_capacity := by
  have hg := get_miss h hk
  have hf := h.find_miss hk
  have ha : fresh_addr (s.m_seq_store.map seq_node_t.addr) ∉ l.map cell.slot := by
    rw [← h.seq_addr]; exact fresh_addr_not_mem _
  have hb : fresh_addr (s.m_assoc_store.map map_node.addr) ∉ l.map cell.node := by
    intro hm
    exact fresh_addr_not_mem _ (h.assoc_addr.mem_iff.mpr hm)
  refine ⟨lru_map.mk s.m_capacity
      (seq_node_t.mk (fresh_addr (s.m_seq_store.map seq_node_t.addr))
        (some (fresh_addr (s.m_assoc_store.map map_node.addr))) :: s.m_seq_store)
      (map_node.mk (fresh_addr (s.m_assoc_store.map map_node.addr)) k
        (assoc_node_t.mk v (some (fresh_addr (s.m_seq_store.map seq_node_t.addr))))
        :: s.m_assoc_store),
    fresh_addr (s.m_seq_store.map seq_node_t.addr),
    fresh_addr (s.m_assoc_store.map map_node.addr), ?_, ?_, ?_⟩
  · simp only [lru_map.put, hg]
    rw [if_neg (by rw [h.length_assoc]; exact hcap)]
    simp only [map_emplace, map_insert, hf, push_front, set_front_assoc_iter, seq_begin]
  · exact
      { seq := by simp [cell.seq, h.seq]
        assoc := by
          simp only [List.map_cons]
          exact List.Perm.cons _ h.assoc
        slots := by simp only [List.map_cons, List.nodup_cons]; exact ⟨ha, h.slots⟩
        nodes := by simp only [List.map_cons, List.nodup_cons]; exact ⟨hb, h.nodes⟩
        keys := by simp only [List.map_cons, List.nodup_cons]; exact ⟨hk, h.keys⟩ }
  · rfl

theorem put_evict {s : lru_map K V} {l1 : List (cell K V)} {c : cell K V}
    (h : Rep s (l1 ++ [c])) {k : K} (v : V)
    (hk : k ∉ (l1 ++ [c]).map cell.key) (hcap : (l1 ++ [c]).length = s.m_capacity) :
    ∃ s1, s.put k v = some s1 ∧ Rep s1 ({ c with key := k, val := v } :: l1) ∧
      s1.m_capacity = s.m_capacity := by
  have hg := get_miss h hk
  have hnot : c.slot ∉ l1.map cell.slot := by
    have := h.slots
    rw [List.map_append] at this
    intro hm
    exact (List.nodup_append.mp this).2.2 hm (by simp)
  have hreloc : (if s.m_seq_store.length > 1
        then splice_front s.m_seq_store (seq_last s.m_seq_store)
        else some s.m_seq_store) = some (c.seq :: l1.map cell.seq) := by
    split
    · rw [h.seq, seq_last_cells]
      simp only [splice_front, seq_unlink_cells l1 [] c hnot, List.append_nil]
    · rename_i hlen
      rw [h.length_seq] at hlen
      cases l1 with
      | nil => rw [h.seq]; rfl
      | cons d r => simp at hlen
  obtain ⟨r, hx, hp⟩ := map_unlink_perm s.m_assoc_store c.assoc h.assoc_addr_nodup
    (h.mem_assoc (by simp))
  have hpr : r.Perm (l1.map cell.assoc) := by
    have h1 : (c.assoc :: r).Perm (c.assoc :: l1.map cell.assoc) := by
      refine hp.symm.trans (h.assoc.trans ?_)
      rw [List.map_append]
      exact List.perm_append_comm
    exact h1.cons_inv
  have hfr : map_find r k = none := by
    apply map_find_eq_none
    intro n hn e
    apply hk
    rw [← e]
    have : n ∈ s.m_assoc_store := hp.mem_iff.mpr (List.mem_cons_of_mem _ hn)
    exact h.assoc_first.mem_iff.mp (List.mem_map_of_mem _ this)
  have hnodup : ∀ f : cell K V → Nat, ((l1 ++ [c]).map f).Nodup → f c ∉ l1.map f ∧ (l1.map f).Nodup := by
    intro f hf
    rw [List.map_append] at hf
    have := List.nodup_append.mp hf
    exact ⟨fun hm => this.2.2 hm (by simp), this.1⟩
  refine ⟨lru_map.mk s.m_capacity (c.seq :: l1.map cell.seq)
      (map_node.mk c.node k (assoc_node_t.mk v (some c.slot)) :: r), ?_, ?_, ?_⟩
  · simp only [lru_map.put, hg]
    rw [if_pos (by rw [h.length_assoc]; exact hcap)]
    simp only [lru_map.evict_put, hreloc]
    have e1 : c.seq.m_assoc_iter = some c.node := rfl
    have e2 : c.assoc.addr = c.node := rfl
    simp only [e1, map_extract]
    rw [← e2, hx]
    simp only [map_insert, hfr, set_front_assoc_iter, seq_begin]
    rfl
  · exact
      { seq := by simp [cell.seq, cell.assoc]
        assoc := by
          simp only [List.map_cons]
          exact List.Perm.cons _ hpr
        slots := by
          simp only [List.map_cons, List.nodup_cons]
          exact hnodup cell.slot h.slots
        nodes := by
          simp only [List.map_cons, List.nodup_cons]
          exact hnodup cell.node h.nodes
        keys := by
          have := h.keys
          rw [List.map_append] at this
          simp only [List.map_cons, List.nodup_cons]
          refine ⟨fun hm => hk ?_, (List.nodup_append.mp this).1⟩
          rw [List.map_append]
          exact List.mem_append_left _ hm }
  · rfl

omit [DecidableEq K] in
theorem mem_keys_split {l : List (cell K V)} {k : K} (hk : k ∈ l.map cell.key) :
    ∃ l1 c l2, l = l1 ++ c :: l2 ∧ c.key = k := by
  obtain ⟨c, hc, e⟩ := List.mem_map.mp hk
  obtain ⟨l1, l2, hl⟩ := List.append_of_mem hc
  exact ⟨l1, c, l2, hl, e⟩

omit [DecidableEq K] in
theorem exists_concat {l : List (cell K V)} (hl : l ≠ []) : ∃ l1 c, l = l1 ++ [c] := by
  rcases List.eq_nil_or_concat l with h | ⟨l1, c, h⟩
  · exact absurd h hl
  · exact ⟨l1, c, by simpa using h⟩

theorem filter_kv_middle {l1 l2 : List (cell K V)} {c : cell K V}
    (hk : ((l1 ++ c :: l2).map cell.key).Nodup) :
    ((l1 ++ c :: l2).map cell.kv).filter (fun e => decide (e.1 ≠ c.key))
      = (l1 ++ l2).map cell.kv := by
  have hp : (l1 ++ c :: l2).Perm (c :: (l1 ++ l2)) := List.perm_middle
  have hk2 := (hp.map cell.key).nodup_iff.mp hk
  simp only [List.map_cons, List.nodup_cons] at hk2
  have hall : ∀ d ∈ l1 ++ l2, decide (d.kv.1 ≠ c.key) = true := by
    intro d hd
    have : d.key ≠ c.key := by
      intro e; apply hk2.1; rw [← e]; exact List.mem_map_of_mem _ hd
    simpa [cell.kv] using this
  have h1 : ∀ d ∈ l1, decide (d.kv.1 ≠ c.key) = true :=
    fun d hd => hall d (List.mem_append_left _ hd)
  have h2 : ∀ d ∈ l2, decide (d.kv.1 ≠ c.key) = true :=
    fun d hd => hall d (List.mem_append_right _ hd)
  have f1 : (l1.map cell.kv).filter (fun e => decide (e.1 ≠ c.key)) = l1.map cell.kv := by
    rw [List.filter_eq_self]
    intro e he
    obtain ⟨d, hd, rfl⟩ := List.mem_map.mp he
    exact h1 d hd
  have f2 : (l2.map cell.kv).filter (fun e => decide (e.1 ≠ c.key)) = l2.map cell.kv := by
    rw [List.filter_eq_self]
    intro e he
    obtain ⟨d, hd, rfl⟩ := List.mem_map.mp he
    exact h2 d hd
  rw [List.map_append, List.filter_append, List.map_cons, List.filter_cons, f1, f2]
  simp [cell.kv]

theorem Rep.contains_iff {s : lru_map K V} {l : List (cell K V)} (h : Rep s l) (k : K) :
    s.contains k = true ↔ k ∈ l.map cell.key := by
  unfold lru_map.contains
  constructor
  · intro hc
    by_contra hk
    rw [h.find_miss hk] at hc
    cases hc
  · intro hk
    obtain ⟨c, hc, rfl⟩ := List.mem_map.mp hk
    rw [h.find_hit hc]
    rfl

omit [DecidableEq K] in
theorem map_kv_fst (l : List (cell K V)) : (l.map cell.kv).map Prod.fst = l.map cell.key := by
  simp [List.map_map, Function.comp_def, cell.kv]

theorem put_spec {s : lru_map K V} {l : List (cell K V)} (h : Rep s l)
    (hc : 0 < s.m_capacity) (k : K) (v : V) :
    ∃ s1 c1 l1, s.put k v = some s1 ∧ Rep s1 (c1 :: l1) ∧ c1.key = k ∧ c1.val = v ∧
      s1.m_capacity = s.m_capacity ∧
      (c1 :: l1).map cell.kv = put_entries s.m_capacity (l.map cell.kv) k v := by
  unfold put_entries
  rw [map_kv_fst, List.length_map]
  by_cases hk : k ∈ l.map cell.key
  · obtain ⟨l1, c, l2, rfl, rfl⟩ := mem_keys_split hk
    obtain ⟨s1, hp, hr, hcap⟩ := put_hit h v
    refine ⟨s1, _, _, hp, hr, rfl, rfl, hcap, ?_⟩
    rw [if_pos hk, filter_kv_middle h.keys]
    rfl
  · rw [if_neg hk]
    by_cases hfull : l.length = s.m_capacity
    · have hne : l ≠ [] := by
        intro e; rw [e] at hfull; simp at hfull; omega
      obtain ⟨l1, c, rfl⟩ := exists_concat hne
      obtain ⟨s1, hp, hr, hcap⟩ := put_evict h v hk hfull
      refine ⟨s1, _, _, hp, hr, rfl, rfl, hcap, ?_⟩
      rw [if_pos hfull]
      simp [cell.kv]
    · obtain ⟨s1, a, b, hp, hr, hcap⟩ := put_push h v hk hfull
      refine ⟨s1, _, _, hp, hr, rfl, rfl, hcap, ?_⟩
      rw [if_neg hfull]
      rfl

theorem get_spec_hit {s : lru_map K V} {l : List (cell K V)} (h : Rep s l) {k : K}
    (hk : k ∈ l.map cell.key) :
    ∃ s1 c1 l1, s.get k = some (some c1.node, s1) ∧ Rep s1 (c1 :: l1) ∧ c1.key = k ∧ c1 ∈ l ∧
      s1.m_capacity = s.m_capacity ∧ s1.m_assoc_store = s.m_assoc_store ∧
      l1.map cell.kv = (l.map cell.kv).filter (fun e => decide (e.1 ≠ k)) ∧
      l1.length + 1 = l.length := by
  obtain ⟨l1, c, l2, rfl, rfl⟩ := mem_keys_split hk
  obtain ⟨s1, hg, hr, hcap, hassoc, -⟩ := get_hit h
  refine ⟨s1, c, l1 ++ l2, hg, hr, rfl, by simp, hcap, hassoc, ?_, by simp; omega⟩
  rw [filter_kv_middle h.keys]

theorem Rep.put_length {s : lru_map K V} {l l1 : List (cell K V)} (h : Rep s l)
    (hc : 0 < s.m_capacity) (hl : l.length ≤ s.m_capacity) (k : K) (v : V)
    (h1 : l1.map cell.kv = put_entries s.m_capacity (l.map cell.kv) k v) :
    l1.length ≤ s.m_capacity := by
  have e := congrArg List.length h1
  rw [List.length_map] at e
  rw [e]
  unfold put_entries
  rw [map_kv_fst, List.length_map]
  by_cases hk : k ∈ l.map cell.key
  · rw [if_pos hk]
    obtain ⟨l1, c, l2, rfl, rfl⟩ := mem_keys_split hk
    rw [filter_kv_middle h.keys]
    simp only [List.length_cons, List.length_map, List.length_append] at hl ⊢
    omega
  · rw [if_neg hk]
    by_cases hfull : l.length = s.m_capacity
    · rw [if_pos hfull]
      simp only [List.length_cons, List.length_map, List.length_dropLast]
      omega
    · rw [if_neg hfull]
      simp only [List.length_cons, List.length_map]
      omega

theorem put_zero {s : lru_map K V} (h : Rep s []) (hc : s.m_capacity = 0) (k : K) (v : V) :
    s.put k v = none := by
  have hg := get_miss h (k := k) (by simp)
  have hs : s.m_seq_store = [] := h.seq
  have hl : s.m_assoc_store.length = s.m_capacity := by rw [h.length_assoc, hc]; rfl
  simp only [lru_map.put, hg]
  rw [if_pos hl]
  simp only [lru_map.evict_put, hs, List.length_nil]
  rfl

theorem Reachable.rep {c : Nat} {s : lru_map K V} (h : Reachable c s) :
    ∃ l, Rep s l ∧ s.m_capacity = c ∧ l.length ≤ c := by
  induction h with
  | init => exact ⟨[], Rep.new c, rfl, Nat.zero_le _⟩
  | put s s1 k v _ hp ih =>
    obtain ⟨l, hr, hcap, hl⟩ := ih
    by_cases hc : 0 < c
    · obtain ⟨s2, c1, l1, hp2, hr2, -, -, hcap2, hkv⟩ := put_spec hr (by omega) k v
      rw [hp] at hp2
      cases hp2
      refine ⟨_, hr2, hcap2.trans hcap, ?_⟩
      have := hr.put_length (by omega) (by omega) k v hkv
      omega
    · have hl0 : l = [] := List.length_eq_zero.mp (by omega)
      subst hl0
      rw [put_zero hr (by omega) k v] at hp
      cases hp
  | get s s1 k e _ hg ih =>
    obtain ⟨l, hr, hcap, hl⟩ := ih
    by_cases hk : k ∈ l.map cell.key
    · obtain ⟨s2, c1, l1, hg2, hr2, -, -, hcap2, -, -, hlen⟩ := get_spec_hit hr hk
      rw [hg] at hg2
      cases hg2
      refine ⟨_, hr2, hcap2.trans hcap, ?_⟩
      simp only [List.length_cons]
      omega
    · have hg2 := get_miss hr hk
      rw [hg] at hg2
      cases hg2
      exact ⟨l, hr, hcap, hl⟩

/-! ## Reachable states, runs and touch times -/

omit [DecidableEq K] in
theorem Rep.entries_eq {s : lru_map K V} {l : List (cell K V)} (h : Rep s l)
    {es : List (K × V)} (he : s.entries = some es) :
    es = l.map cell.kv ∧ es.map Prod.fst = l.map cell.key ∧ (es.map Prod.fst).Nodup := by
  rw [h.entries] at he
  cases he
  exact ⟨rfl, map_kv_fst l, by rw [map_kv_fst]; exact h.keys⟩

theorem Rep.not_contains {s : lru_map K V} {l : List (cell K V)} (h : Rep s l) {k : K}
    (hk : s.contains k = false) : k ∉ l.map cell.key := by
  intro hm
  rw [(h.contains_iff k).mpr hm] at hk
  cases hk

theorem Reachable.step_total {c : Nat} {s : lru_map K V} (hc : 0 < c) (h : Reachable c s)
    (o : op K V) : ∃ s1, step s o = some s1 ∧ Reachable c s1 := by
  obtain ⟨l, hr, hcap, -⟩ := h.rep
  cases o with
  | put k v =>
    obtain ⟨s1, -, -, hp, -⟩ := put_spec hr (by omega) k v
    exact ⟨s1, hp, Reachable.put s s1 k v h hp⟩
  | get k =>
    by_cases hk : k ∈ l.map cell.key
    · obtain ⟨s1, c1, -, hg, -⟩ := get_spec_hit hr hk
      exact ⟨s1, by simp only [step, hg], Reachable.get s s1 k _ h hg⟩
    · have hg := get_miss hr hk
      exact ⟨s, by simp only [step, hg], h⟩

theorem Reachable.run_total {c : Nat} (hc : 0 < c) (ops : List (op K V)) :
    ∀ s : lru_map K V, Reachable c s → ∃ s1, run s ops = some s1 ∧ Reachable c s1 := by
  induction ops with
  | nil => intro s h; exact ⟨s, rfl, h⟩
  | cons o r ih =>
    intro s h
    obtain ⟨s1, hs, h1⟩ := h.step_total hc o
    obtain ⟨s2, hs2, h2⟩ := ih s1 h1
    exact ⟨s2, by simp only [run, hs, hs2], h2⟩

theorem reachable_state_one : Reachable 2 state_one :=
  Reachable.put (lru_map.new 2) state_one 1 10 Reachable.init rfl

theorem reachable_state_two : Reachable 2 state_two :=
  Reachable.put state_one state_two 2 20 reachable_state_one rfl

theorem Rep.split_of_contains {s : lru_map K V} {l : List (cell K V)} (h : Rep s l) {k : K}
    (hk : s.contains k = true) :
    ∃ l1 c l2, l = l1 ++ c :: l2 ∧ c.key = k :=
  mem_keys_split ((h.contains_iff k).mp hk)

omit [DecidableEq K] in
theorem dump_loop_sep (show_k : K → String) (show_v : V → String) (m : List (map_node K V))
    (l : List seq_node_t) :
    ∀ os : String, lru_map.dump_loop show_k show_v m l true os
      = (entries_of m l).map
          (fun es => String.intercalate.go os "," (es.map (render show_k show_v))) := by
  induction l with
  | nil => intro os; rfl
  | cons x r ih =>
    intro os
    simp only [lru_map.dump_loop, entries_of]
    cases hd : map_deref m x.m_assoc_iter with
    | none => rfl
    | some n =>
      simp only [if_true]
      rw [ih]
      cases entries_of m r with
      | none => rfl
      | some es =>
        simp only [Option.map_some', List.map_cons, String.intercalate.go, render,
          String.append_assoc]

theorem run_concat (ops : List (op K V)) (o : op K V) :
    ∀ s s1 : lru_map K V, run s ops = some s1 → run s (ops ++ [o]) = step s1 o := by
  induction ops with
  | nil =>
    intro s s1 h
    simp only [run] at h
    cases h
    simp only [List.nil_append, run]
    cases step s o <;> rfl
  | cons o1 r ih =>
    intro s s1 h
    simp only [run, List.cons_append] at h ⊢
    cases hs : step s o1 with
    | none => rw [hs] at h; cases h
    | some s2 =>
      rw [hs] at h
      exact ih s2 s1 h

theorem last_touch_from_lt (ops : List (op K V)) (k : K) :
    ∀ (i : Nat) (s : lru_map K V), 1 ≤ i → last_touch_from i s ops k < i + ops.length := by
  induction ops with
  | nil => intro i s hi; simp only [last_touch_from, List.length_nil]; omega
  | cons o r ih =>
    intro i s hi
    simp only [last_touch_from, List.length_cons]
    cases hs : step s o with
    | none =>
      simp only [ne_eq, not_true_eq_false, if_false]
      split <;> omega
    | some s1 =>
      have := ih (i + 1) s1 (by omega)
      simp only
      split
      · omega
      · split <;> omega

theorem last_touch_from_concat (ops : List (op K V)) (o : op K V) (k : K) :
    ∀ (i : Nat) (s s1 : lru_map K V), 1 ≤ i → run s ops = some s1 →
      last_touch_from i s (ops ++ [o]) k
        = if touched s1 o = some k then i + ops.length else last_touch_from i s ops k := by
  induction ops with
  | nil =>
    intro i s s1 hi h
    simp only [run] at h
    cases h
    simp only [List.nil_append, last_touch_from, List.length_nil, Nat.add_zero]
    cases step s o <;> simp
  | cons o1 r ih =>
    intro i s s1 hi h
    simp only [run] at h
    cases hs : step s o1 with
    | none => rw [hs] at h; cases h
    | some s2 =>
      rw [hs] at h
      have e := ih (i + 1) s2 s1 (by omega) h
      simp only [List.cons_append, last_touch_from, hs, List.length_cons, List.append_eq]
      rw [e]
      by_cases ht : touched s1 o = some k
      · simp only [ht, if_true]
        rw [if_pos (by omega)]
        omega
      · simp only [ht, if_false]

theorem step_keys {s : lru_map K V} {l : List (cell K V)} (h : Rep s l)
    (hc : 0 < s.m_capacity) (hl : l.length ≤ s.m_capacity) (o : op K V) :
    ∃ s1 l1, step s o = some s1 ∧ Rep s1 l1 ∧ s1.m_capacity = s.m_capacity ∧
      l1.length ≤ s.m_capacity ∧
      ((touched s o = none ∧ l1 = l) ∨
        ∃ k r, touched s o = some k ∧ l1.map cell.key = k :: r ∧
          r.Sublist (l.map cell.key)) := by
  cases o with
  | put k v =>
    obtain ⟨s1, c1, l1, hp, hr1, hk, -, hcap, hkv⟩ := put_spec h hc k v
    refine ⟨s1, c1 :: l1, hp, hr1, hcap, h.put_length hc hl k v hkv, Or.inr ⟨k, l1.map cell.key,
      rfl, by rw [List.map_cons, hk], ?_⟩⟩
    have e := congrArg (List.map Prod.fst) hkv
    rw [map_kv_fst, List.map_cons] at e
    unfold put_entries at e
    have e2 : l1.map cell.key = (List.map Prod.fst (if k ∈ List.map Prod.fst (List.map cell.kv l)
        then (k, v) :: List.filter (fun e => decide (e.1 ≠ k)) (List.map cell.kv l)
        else if (List.map cell.kv l).length = s.m_capacity
          then (k, v) :: (List.map cell.kv l).dropLast
          else (k, v) :: List.map cell.kv l)).tail := by
      rw [← e]; rfl
    rw [e2, ← map_kv_fst l]
    split
    · exact (List.filter_sublist _).map _
    · split
      · exact (List.dropLast_sublist _).map _
      · exact List.Sublist.refl _
  | get k =>
    by_cases hk : k ∈ l.map cell.key
    · obtain ⟨s1, c1, l1, hg, hr1, hck, -, hcap, -, hkv, hlen⟩ := get_spec_hit h hk
      refine ⟨s1, c1 :: l1, by simp only [step, hg], hr1, hcap, by simp only [List.length_cons]; omega,
        Or.inr ⟨k, l1.map cell.key, by simp only [touched, hg], by rw [List.map_cons, hck], ?_⟩⟩
      rw [← map_kv_fst l1, hkv, ← map_kv_fst l]
      exact (List.filter_sublist _).map _
    · have hg := get_miss h hk
      exact ⟨s, l, by simp only [step, hg], h, rfl, hl, Or.inl ⟨by simp only [touched, hg], rfl⟩⟩

theorem recency_invariant (c : Nat) (hc : 0 < c) (ops : List (op K V)) :
    ∃ s l, run (lru_map.new c) ops = some s ∧ Rep s l ∧ s.m_capacity = c ∧ l.length ≤ c ∧
      (l.map cell.key).Pairwise (fun a b => last_touch c ops b < last_touch c ops a) ∧
      ∀ k ∈ l.map cell.key, 0 < last_touch c ops k := by
  induction ops using List.reverseRecOn with
  | nil =>
    exact ⟨lru_map.new c, [], rfl, Rep.new c, rfl, Nat.zero_le _, List.Pairwise.nil,
      fun k hk => by cases hk⟩
  | append_singleton ops o ih =>
    obtain ⟨s, l, hrun, hrep, hcap, hl, hpw, hpos⟩ := ih
    obtain ⟨s1, l1, hstep, hrep1, hcap1, hl1, hcase⟩ :=
      step_keys hrep (by omega) (by omega) o
    have hlt : ∀ x : K, last_touch c (ops ++ [o]) x
        = if touched s o = some x then 1 + ops.length else last_touch c ops x :=
      fun x => last_touch_from_concat ops o x 1 _ s (Nat.le_refl 1) hrun
    have hbound : ∀ x : K, last_touch c ops x < 1 + ops.length :=
      fun x => last_touch_from_lt ops x 1 _ (Nat.le_refl 1)
    refine ⟨s1, l1, by rw [run_concat ops o _ s hrun]; exact hstep, hrep1, hcap1.trans hcap,
      by omega, ?_, ?_⟩
    · rcases hcase with ⟨ht, rfl⟩ | ⟨k, r, ht, hkeys, hsub⟩
      · refine hpw.imp ?_
        intro a b hab
        rw [hlt a, hlt b, ht]
        simpa using hab
      · have hnd := hrep1.keys
        rw [hkeys] at hnd ⊢
        simp only [List.nodup_cons] at hnd
        have hother : ∀ x ∈ r, last_touch c (ops ++ [o]) x = last_touch c ops x := by
          intro x hx
          rw [hlt x, ht]
          have : k ≠ x := fun e => hnd.1 (e ▸ hx)
          simp [this]
        rw [List.pairwise_cons]
        constructor
        · intro x hx
          rw [hother x hx, hlt k, ht]
          simpa using hbound x
        · refine (hpw.sublist hsub).imp_of_mem ?_
          intro a b ha hb hab
          rw [hother a ha, hother b hb]
          exact hab
    · rcases hcase with ⟨ht, rfl⟩ | ⟨k, r, ht, hkeys, hsub⟩
      · intro x hx
        rw [hlt x, ht]
        simpa using hpos x hx
      · intro x hx
        rw [hkeys] at hx
        rw [hlt x, ht]
        by_cases e : k = x
        · simp only [e, if_true]; omega
        · rcases List.mem_cons.mp hx with h1 | h1
          · exact absurd h1.symm e
          · have : ¬ (some k = some x) := by simpa using e
            rw [if_neg this]
            exact hpos x (hsub.subset h1)

/-! ## Refinement, overwriting and survival lemmas -/

theorem naive_lookup_none {es : List (K × V)} {k : K} (h : k ∉ es.map Prod.fst) :
    naive_lookup es k = none := by
  induction es with
  | nil => rfl
  | cons e r ih =>
    simp only [List.map_cons, List.mem_cons, not_or] at h
    simp only [naive_lookup]
    rw [if_neg (fun e1 => h.1 e1.symm)]
    exact ih h.2

theorem naive_lookup_some {es : List (K × V)} {k : K} {v : V}
    (hn : (es.map Prod.fst).Nodup) (h : (k, v) ∈ es) : naive_lookup es k = some v := by
  induction es with
  | nil => cases h
  | cons e r ih =>
    simp only [List.map_cons, List.nodup_cons] at hn
    simp only [naive_lookup]
    rcases List.mem_cons.mp h with rfl | hr
    · simp
    · have : e.1 ≠ k := by
        intro e1
        apply hn.1
        rw [e1]
        exact List.mem_map_of_mem Prod.fst hr
      rw [if_neg this]
      exact ih hn.2 hr

theorem naive_erase_eq_filter {es : List (K × V)} {k : K} (hn : (es.map Prod.fst).Nodup) :
    naive_erase es k = es.filter (fun e => decide (e.1 ≠ k)) := by
  induction es with
  | nil => rfl
  | cons e r ih =>
    simp only [List.map_cons, List.nodup_cons] at hn
    simp only [naive_erase, List.filter_cons]
    by_cases e1 : e.1 = k
    · simp only [e1, if_true, ne_eq, not_true_eq_false, decide_False, Bool.false_eq_true, if_false]
      symm
      rw [List.filter_eq_self]
      intro x hx
      have : x.1 ≠ k := by
        intro e2
        apply hn.1
        rw [e1, ← e2]
        exact List.mem_map_of_mem Prod.fst hx
      simpa using this
    · simp only [e1, if_false, ne_eq, not_false_eq_true, decide_True, if_true]
      rw [ih hn.2]

theorem naive_put_eq {cap : Nat} {es : List (K × V)} (hn : (es.map Prod.fst).Nodup)
    (hl : es.length ≤ cap) (k : K) (v : V) :
    naive_put cap es k v = put_entries cap es k v := by
  unfold naive_put put_entries
  by_cases hk : k ∈ es.map Prod.fst
  · rw [if_pos hk]
    obtain ⟨e, he, rfl⟩ := List.mem_map.mp hk
    rw [naive_lookup_some hn (show (e.1, e.2) ∈ es from he), naive_erase_eq_filter hn]
  · rw [if_neg hk, naive_lookup_none hk]
    by_cases hfull : es.length = cap
    · rw [if_pos hfull]
      simp only
      rw [if_neg (by omega)]
    · rw [if_neg hfull]
      simp only
      rw [if_pos (by omega)]

omit [DecidableEq K] in
theorem dump_of_entries (show_k : K → String) (show_v : V → String) (s : lru_map K V)
    (es : List (K × V)) (h : s.entries = some es) :
    s.dump show_k show_v = some (naive_dump show_k show_v es) := by
  unfold lru_map.dump lru_map.entries naive_dump at *
  revert h
  cases s.m_seq_store with
  | nil => intro h; simp only [entries_of] at h; cases h; rfl
  | cons x r =>
    simp only [lru_map.dump_loop, entries_of]
    cases hd : map_deref s.m_assoc_store x.m_assoc_iter with
    | none => intro h; cases h
    | some n =>
      simp only [Bool.false_eq_true, if_false]
      rw [dump_loop_sep]
      cases entries_of s.m_assoc_store r with
      | none => intro h; cases h
      | some es1 =>
        intro h
        cases h
        simp only [Option.map_some', List.map_cons, String.intercalate, render,
          String.append_assoc, String.empty_append]

theorem observe_rep (c : Nat) (hc : 0 < c) (ops : List (op K V)) :
    ∀ (s : lru_map K V) (l : List (cell K V)), Rep s l → s.m_capacity = c → l.length ≤ c →
      observe s ops = some (naive_observe c (l.map cell.kv) ops) := by
  induction ops with
  | nil => intro s l _ _ _; rfl
  | cons o r ih =>
    intro s l h hcap hl
    have hnd : ((l.map cell.kv).map Prod.fst).Nodup := by rw [map_kv_fst]; exact h.keys
    cases o with
    | put k v =>
      obtain ⟨s1, c1, l1, hp, hr1, -, -, hcap1, hkv⟩ := put_spec h (by omega) k v
      have hl1 := h.put_length (by omega) (by omega) k v hkv
      have hnp : naive_put c (l.map cell.kv) k v = (c1 :: l1).map cell.kv := by
        rw [naive_put_eq hnd (by rw [List.length_map]; exact hl), hkv, hcap]
      simp only [observe, naive_observe, hp, hr1.entries,
        ih s1 (c1 :: l1) hr1 (hcap1.trans hcap) (by omega), hnp]
    | get k =>
      by_cases hk : k ∈ l.map cell.key
      · obtain ⟨s1, c1, l1, hg, hr1, hck, hmem, hcap1, -, hkv, hlen⟩ := get_spec_hit h hk
        have hload : get_result s1 (some c1.node) = some (some c1.val) := by
          simp only [get_result, lru_map.load, hr1.deref (List.mem_cons_self _ _)]
          rfl
        have hlook : naive_lookup (l.map cell.kv) k = some c1.val := by
          apply naive_lookup_some hnd
          rw [← hck]
          exact List.mem_map_of_mem cell.kv hmem
        have hng : naive_get (l.map cell.kv) k = (some c1.val, (c1 :: l1).map cell.kv) := by
          simp only [naive_get, hlook, naive_erase_eq_filter hnd, ← hkv, List.map_cons]
          rw [← hck]
          rfl
        simp only [observe, naive_observe, hg, hload, hr1.entries,
          ih s1 (c1 :: l1) hr1 (hcap1.trans hcap) (by simp only [List.length_cons]; omega), hng]
      · have hg := get_miss h hk
        have hng : naive_get (l.map cell.kv) k = (none, l.map cell.kv) := by
          simp only [naive_get, naive_lookup_none (by rw [map_kv_fst]; exact hk)]
        simp only [observe, naive_observe, hg, get_result, h.entries, ih s l h hcap hl, hng]

theorem Rep.contains_false {s : lru_map K V} {l : List (cell K V)} (h : Rep s l) {k : K}
    (hk : k ∉ l.map cell.key) : s.contains k = false := by
  cases hc : s.contains k with
  | false => rfl
  | true => exact absurd ((h.contains_iff k).mp hc) hk

theorem reachable_state_single : Reachable 1 state_single :=
  Reachable.put (lru_map.new 1) state_single 1 10 Reachable.init rfl

theorem put_capacity_one {s : lru_map K V} {l : List (cell K V)} (h : Rep s l)
    (hcap : s.m_capacity = 1) (hl : l.length ≤ 1) (k : K) (v : V) :
    ∃ s1 c1, s.put k v = some s1 ∧ Rep s1 [c1] ∧ c1.key = k ∧ c1.val = v := by
  obtain ⟨s1, c1, l1, hp, hr1, hk, hv, -, hkv⟩ := put_spec h (by omega) k v
  have hlen := h.put_length (by omega) (by omega) k v hkv
  have hl1 : l1 = [] := by
    apply List.length_eq_zero.mp
    simp only [List.length_cons] at hlen
    omega
  subst hl1
  exact ⟨s1, c1, hp, hr1, hk, hv⟩

theorem take_cons_step {α : Type} (c : Nat) (hc : 1 ≤ c) (p : α) (R : List α) :
    (if (R.take c).length = c then p :: (R.take c).dropLast else p :: R.take c)
      = (p :: R).take c := by
  rw [List.take_cons (by omega)]
  by_cases h : c ≤ R.length
  · rw [if_pos (by rw [List.length_take]; omega)]
    rw [List.dropLast_eq_take, List.take_take, List.length_take]
    congr 2
    omega
  · rw [if_neg (by rw [List.length_take]; omega)]
    rw [List.take_of_length_le (by omega), List.take_of_length_le (by omega)]

theorem puts_invariant (c : Nat) (hc : 1 ≤ c) (kvs : List (K × V))
    (hd : (kvs.map Prod.fst).Nodup) :
    ∃ s l, run (lru_map.new c) (kvs.map (fun p => op.put p.1 p.2)) = some s ∧ Rep s l ∧
      s.m_capacity = c ∧ l.map cell.kv = kvs.reverse.take c := by
  induction kvs using List.reverseRecOn with
  | nil => exact ⟨lru_map.new c, [], rfl, Rep.new c, rfl, by simp⟩
  | append_singleton kvs p ih =>
    rw [List.map_append, List.nodup_append] at hd
    obtain ⟨s, l, hrun, hrep, hcap, hkv⟩ := ih hd.1
    have hp : p.1 ∉ (l.map cell.kv).map Prod.fst := by
      intro hm
      rw [hkv] at hm
      obtain ⟨q, hq, hq1⟩ := List.mem_map.mp hm
      have hq2 : q ∈ kvs := List.mem_reverse.mp (List.mem_of_mem_take hq)
      exact hd.2.2 (List.mem_map_of_mem Prod.fst hq2) (by simp [hq1])
    obtain ⟨s1, c1, l1, hput, hr1, -, -, hcap1, hkv1⟩ := put_spec hrep (by omega) p.1 p.2
    refine ⟨s1, c1 :: l1, ?_, hr1, hcap1.trans hcap, ?_⟩
    · rw [List.map_append, List.map_cons, List.map_nil, run_concat _ _ _ s hrun]
      exact hput
    · rw [hkv1]
      unfold put_entries
      rw [if_neg hp, hkv, hcap, List.reverse_append, List.reverse_cons, List.reverse_nil,
        List.nil_append, List.singleton_append]
      exact take_cons_step c hc p kvs.reverse

theorem last_put_concat (ops : List (op K V)) (o : op K V) (k : K) :
    last_put (ops ++ [o]) k
      = match o with
        | op.put k1 v => if k1 = k then some v else last_put ops k
        | op.get _ => last_put ops k := by
  induction ops with
  | nil =>
    cases o with
    | put k1 v => simp only [List.nil_append, last_put]
    | get k1 => simp only [List.nil_append, last_put]
  | cons o1 r ih =>
    simp only [List.cons_append, last_put, List.append_eq]
    rw [ih]
    cases o with
    | put k1 v =>
      by_cases e : k1 = k
      · simp only [e, if_true]
      · simp only [e, if_false]
    | get k1 => rfl

theorem put_entries_tail (cap : Nat) (es : List (K × V)) (k : K) (v : V) :
    ∃ r, put_entries cap es k v = (k, v) :: r ∧ r.Sublist es := by
  unfold put_entries
  split
  · exact ⟨_, rfl, List.filter_sublist _⟩
  · split
    · exact ⟨_, rfl, List.dropLast_sublist _⟩
    · exact ⟨_, rfl, List.Sublist.refl _⟩

theorem step_values {s : lru_map K V} {l : List (cell K V)} (h : Rep s l)
    (hc : 0 < s.m_capacity) (hl : l.length ≤ s.m_capacity) (o : op K V) :
    ∃ s1 l1, step s o = some s1 ∧ Rep s1 l1 ∧ s1.m_capacity = s.m_capacity ∧
      l1.length ≤ s.m_capacity ∧
      ∀ d ∈ l1, (o = op.put d.key d.val) ∨
        ((∀ v, o ≠ op.put d.key v) ∧ d.kv ∈ l.map cell.kv) := by
  cases o with
  | put k v =>
    obtain ⟨s1, c1, l1, hp, hr1, hk, hv, hcap, hkv⟩ := put_spec h hc k v
    refine ⟨s1, c1 :: l1, hp, hr1, hcap, h.put_length hc hl k v hkv, ?_⟩
    obtain ⟨r, hr, hsub⟩ := put_entries_tail s.m_capacity (l.map cell.kv) k v
    rw [hr, List.map_cons, List.cons.injEq] at hkv
    have hnd := hr1.keys
    simp only [List.map_cons, List.nodup_cons] at hnd
    intro d hd
    rcases List.mem_cons.mp hd with rfl | hd1
    · left; rw [hk, hv]
    · right
      constructor
      · intro v1 e
        simp only [op.put.injEq] at e
        apply hnd.1
        rw [hk, e.1]
        exact List.mem_map_of_mem cell.key hd1
      · apply hsub.subset
        rw [← hkv.2]
        exact List.mem_map_of_mem cell.kv hd1
  | get k =>
    by_cases hk : k ∈ l.map cell.key
    · obtain ⟨s1, c1, l1, hg, hr1, -, hmem, hcap, -, hkv, hlen⟩ := get_spec_hit h hk
      refine ⟨s1, c1 :: l1, by simp only [step, hg], hr1, hcap,
        by simp only [List.length_cons]; omega, ?_⟩
      intro d hd
      right
      refine ⟨fun v e => (by cases e), ?_⟩
      rcases List.mem_cons.mp hd with rfl | hd1
      · exact List.mem_map_of_mem cell.kv hmem
      · have : d.kv ∈ l1.map cell.kv := List.mem_map_of_mem cell.kv hd1
        rw [hkv] at this
        exact (List.mem_filter.mp this).1
    · have hg := get_miss h hk
      refine ⟨s, l, by simp only [step, hg], h, rfl, hl, ?_⟩
      intro d hd
      exact Or.inr ⟨fun v e => (by cases e), List.mem_map_of_mem cell.kv hd⟩

theorem values_invariant (c : Nat) (hc : 0 < c) (ops : List (op K V)) :
    ∃ s l, run (lru_map.new c) ops = some s ∧ Rep s l ∧ s.m_capacity = c ∧ l.length ≤ c ∧
      ∀ d ∈ l, last_put ops d.key = some d.val := by
  induction ops using List.reverseRecOn with
  | nil =>
    exact ⟨lru_map.new c, [], rfl, Rep.new c, rfl, Nat.zero_le _, fun d hd => by cases hd⟩
  | append_singleton ops o ih =>
    obtain ⟨s, l, hrun, hrep, hcap, hl, hval⟩ := ih
    obtain ⟨s1, l1, hstep, hrep1, hcap1, hl1, hcase⟩ :=
      step_values hrep (by omega) (by omega) o
    refine ⟨s1, l1, by rw [run_concat ops o _ s hrun]; exact hstep, hrep1, hcap1.trans hcap,
      by omega, ?_⟩
    intro d hd
    rw [last_put_concat]
    rcases hcase d hd with e | ⟨hne, hmem⟩
    · rw [e]
      simp only [if_true]
    · obtain ⟨d0, hd0, e0⟩ := List.mem_map.mp hmem
      have hk0 : d0.key = d.key := congrArg Prod.fst e0
      have hv0 : d0.val = d.val := congrArg Prod.snd e0
      have hlast : last_put ops d.key = some d.val := by
        rw [← hk0, ← hv0]
        exact hval d0 hd0
      cases o with
      | put k1 v1 =>
        have : k1 ≠ d.key := fun e => hne v1 (by rw [e])
        simp only [this, if_false]
        exact hlast
      | get k1 => exact hlast

theorem length_le_dedup_length {L M : List K} (hn : L.Nodup) (hs : L ⊆ M) :
    L.length ≤ M.dedup.length :=
  (hn.subperm (fun _ hx => List.mem_dedup.mpr (hs hx))).length_le

theorem front_keys_filter {k k1 : K} {v v1 : V} {seen : List K} {es : List (K × V)}
    (h : front_keys_among k v seen es) (hk : k1 ≠ k) :
    front_keys_among k v (seen ++ [k1])
      ((k1, v1) :: es.filter (fun e => decide (e.1 ≠ k1))) := by
  obtain ⟨pre, post, rfl, hpre⟩ := h
  refine ⟨(k1, v1) :: pre.filter (fun e => decide (e.1 ≠ k1)),
    post.filter (fun e => decide (e.1 ≠ k1)), ?_, ?_⟩
  · rw [List.filter_append, List.filter_cons]
    have : decide ((k, v).1 ≠ k1) = true := by simpa using fun e => hk e.symm
    rw [if_pos this]
    rfl
  · intro x hx
    simp only [List.map_cons, List.mem_cons] at hx
    rcases hx with rfl | hx
    · simp
    · obtain ⟨e, he, rfl⟩ := List.mem_map.mp hx
      exact List.mem_append_left _
        (hpre _ (List.mem_map_of_mem Prod.fst (List.mem_filter.mp he).1))

omit [DecidableEq K] in
theorem front_keys_cons {k k1 : K} {v v1 : V} {seen : List K} {es : List (K × V)}
    (h : front_keys_among k v seen es) :
    front_keys_among k v (seen ++ [k1]) ((k1, v1) :: es) := by
  obtain ⟨pre, post, rfl, hpre⟩ := h
  refine ⟨(k1, v1) :: pre, post, rfl, ?_⟩
  intro x hx
  simp only [List.map_cons, List.mem_cons] at hx
  rcases hx with rfl | hx
  · simp
  · exact List.mem_append_left _ (hpre x hx)

theorem front_keys_dropLast {k k1 : K} {v v1 : V} {seen : List K} {es : List (K × V)}
    {c : Nat} (h : front_keys_among k v seen es) (hlen : es.length = c)
    (hnd : (es.map Prod.fst).Nodup) (hk1 : k1 ∉ es.map Prod.fst)
    (hfew : (seen ++ [k1]).dedup.length < c) :
    front_keys_among k v (seen ++ [k1]) ((k1, v1) :: es.dropLast) := by
  obtain ⟨pre, post, rfl, hpre⟩ := h
  by_cases hpost : post = []
  · exfalso
    subst hpost
    have hn1 : (k1 :: pre.map Prod.fst).Nodup := by
      rw [List.map_append, List.nodup_append] at hnd
      rw [List.nodup_cons]
      refine ⟨fun hm => hk1 ?_, hnd.1⟩
      rw [List.map_append]
      exact List.mem_append_left _ hm
    have hsub : (k1 :: pre.map Prod.fst) ⊆ seen ++ [k1] := by
      intro x hx
      rcases List.mem_cons.mp hx with rfl | hx
      · simp
      · exact List.mem_append_left _ (hpre x hx)
    have := length_le_dedup_length hn1 hsub
    simp only [List.length_cons, List.length_map, List.length_append, List.length_nil] at this hlen
    omega
  · refine ⟨(k1, v1) :: pre, post.dropLast, ?_, ?_⟩
    · rw [List.dropLast_append_of_ne_nil pre (List.cons_ne_nil _ _),
        List.dropLast_cons_of_ne_nil hpost]
      rfl
    · intro x hx
      simp only [List.map_cons, List.mem_cons] at hx
      rcases hx with rfl | hx
      · simp
      · exact List.mem_append_left _ (hpre x hx)

theorem front_keys_put {k k1 : K} {v v1 : V} {seen : List K} {es : List (K × V)}
    {c : Nat} (h : front_keys_among k v seen es) (hk : k1 ≠ k)
    (hnd : (es.map Prod.fst).Nodup) (hfew : (seen ++ [k1]).dedup.length < c) :
    front_keys_among k v (seen ++ [k1]) (put_entries c es k1 v1) := by
  unfold put_entries
  split
  · exact front_keys_filter h hk
  · rename_i hk1
    split
    · rename_i hlen
      exact front_keys_dropLast h hlen hnd hk1 hfew
    · exact front_keys_cons h

theorem survives_aux (c : Nat) (hc : 1 ≤ c) (k : K) (v : V) (ops : List (op K V)) :
    ∀ (s : lru_map K V) (l : List (cell K V)) (seen : List K),
      Rep s l → s.m_capacity = c → l.length ≤ c →
      front_keys_among k v seen (l.map cell.kv) →
      (∀ o ∈ ops, o.key ≠ k) →
      (seen ++ touched_keys s ops).dedup.length < c →
      ∃ s2 l2 seen2, run s ops = some s2 ∧ Rep s2 l2 ∧
        front_keys_among k v seen2 (l2.map cell.kv) := by
  induction ops with
  | nil => intro s l seen h _ _ hf _ _; exact ⟨s, l, seen, rfl, h, hf⟩
  | cons o r ih =>
    intro s l seen h hcap hl hf hops hfew
    have hok : o.key ≠ k := hops o (List.mem_cons_self _ _)
    have hops1 : ∀ o1 ∈ r, o1.key ≠ k := fun o1 h1 => hops o1 (List.mem_cons_of_mem _ h1)
    have hnd : ((l.map cell.kv).map Prod.fst).Nodup := by rw [map_kv_fst]; exact h.keys
    cases o with
    | put k1 v1 =>
      obtain ⟨s1, c1, l1, hp, hr1, -, -, hcap1, hkv⟩ := put_spec h (by omega) k1 v1
      have hl1 := h.put_length (by omega) (by omega) k1 v1 hkv
      have htk : touched_keys s (op.put k1 v1 :: r) = k1 :: touched_keys s1 r := by
        simp only [touched_keys, step, hp, touched]
      rw [htk] at hfew
      have hfew1 : ((seen ++ [k1]) ++ touched_keys s1 r).dedup.length < c := by
        rw [List.append_assoc]
        exact hfew
      have hfew0 : (seen ++ [k1]).dedup.length < c :=
        Nat.lt_of_le_of_lt
          (length_le_dedup_length (List.nodup_dedup _)
            (fun x hx => List.mem_append_left _ (List.mem_dedup.mp hx))) hfew1
      have hf1 : front_keys_among k v (seen ++ [k1]) ((c1 :: l1).map cell.kv) := by
        rw [hkv, hcap]
        exact front_keys_put hf hok hnd hfew0
      obtain ⟨s2, l2, seen2, hrun, hr2, hf2⟩ :=
        ih s1 (c1 :: l1) (seen ++ [k1]) hr1 (hcap1.trans hcap) (by omega) hf1 hops1 hfew1
      exact ⟨s2, l2, seen2, by simp only [run, step, hp, hrun], hr2, hf2⟩
    | get k1 =>
      by_cases hk1 : k1 ∈ l.map cell.key
      · obtain ⟨s1, c1, l1, hg, hr1, hck, -, hcap1, -, hkv, hlen⟩ := get_spec_hit h hk1
        have htk : touched_keys s (op.get k1 :: r) = k1 :: touched_keys s1 r := by
          simp only [touched_keys, step, hg, touched]
        rw [htk] at hfew
        have hfew1 : ((seen ++ [k1]) ++ touched_keys s1 r).dedup.length < c := by
          rw [List.append_assoc]
          exact hfew
        have hf1 : front_keys_among k v (seen ++ [k1]) ((c1 :: l1).map cell.kv) := by
          rw [List.map_cons, hkv]
          have : c1.kv = (k1, c1.val) := by rw [← hck]; rfl
          rw [this]
          exact front_keys_filter hf hok
        obtain ⟨s2, l2, seen2, hrun, hr2, hf2⟩ :=
          ih s1 (c1 :: l1) (seen ++ [k1]) hr1 (hcap1.trans hcap)
            (by simp only [List.length_cons]; omega) hf1 hops1 hfew1
        exact ⟨s2, l2, seen2, by simp only [run, step, hg, hrun], hr2, hf2⟩
      · have hg := get_miss h hk1
        have htk : touched_keys s (op.get k1 :: r) = touched_keys s r := by
          simp only [touched_keys, step, hg, touched]
        rw [htk] at hfew
        obtain ⟨s2, l2, seen2, hrun, hr2, hf2⟩ := ih s l seen h hcap hl hf hops1 hfew
        exact ⟨s2, l2, seen2, by simp only [run, step, hg, hrun], hr2, hf2⟩

theorem front_keys_read {s : lru_map K V} {l : List (cell K V)} (h : Rep s l) {k : K} {v : V}
    {seen : List K} (hf : front_keys_among k v seen (l.map cell.kv)) :
    s.contains k = true ∧ ∃ a s1, s.get k = some (some a, s1) ∧ s1.load (some a) = some v := by
  obtain ⟨pre, post, he, -⟩ := hf
  have hmem : (k, v) ∈ l.map cell.kv := by rw [he]; simp
  obtain ⟨d, hd, hdkv⟩ := List.mem_map.mp hmem
  have hdk : d.key = k := congrArg Prod.fst hdkv
  have hdv : d.val = v := congrArg Prod.snd hdkv
  have hk : k ∈ l.map cell.key := by rw [← hdk]; exact List.mem_map_of_mem cell.key hd
  obtain ⟨s1, c1, l1, hg, hr1, hck, hc1, -⟩ := get_spec_hit h hk
  have hcd : c1 = d := List.inj_on_of_nodup_map h.keys hc1 hd (hck.trans hdk.symm)
  refine ⟨(h.contains_iff k).mpr hk, c1.node, s1, hg, ?_⟩
  simp only [lru_map.load, hr1.deref (List.mem_cons_self _ _)]
  rw [hcd, ← hdv]
  rfl

omit [DecidableEq K] in
theorem set_value_twice (a : Nat) (v w : V) (n : map_node K V) :
    set_value a w (set_value a v n) = set_value a w n := by
  unfold set_value
  by_cases e : n.addr = a
  · simp only [e, if_true]
  · simp only [e, if_false]

omit [DecidableEq K] in
theorem map_set_value_of_not_mem (a : Nat) (w : V) (m : List (map_node K V))
    (h : a ∉ m.map map_node.addr) : m.map (set_value a w) = m := by
  conv_rhs => rw [← List.map_id m]
  apply List.map_congr_left
  intro n hn
  have : n.addr ≠ a := by
    intro e
    apply h
    rw [← e]
    exact List.mem_map_of_mem map_node.addr hn
  simp only [set_value, this, if_false, id]

theorem put_again {s : lru_map K V} {l : List (cell K V)} {d : cell K V}
    (h : Rep s (d :: l)) (w : V) :
    s.put d.key w
      = some (lru_map.mk s.m_capacity s.m_seq_store
          (s.m_assoc_store.map (set_value d.node w))) := by
  obtain ⟨s0, hg, -, -, -, hs⟩ := @get_hit K V _ s [] l d h
  rw [hs rfl] at hg
  have hmem : d.node ∈ s.m_assoc_store.map map_node.addr :=
    h.assoc_addr.mem_iff.mpr (by simp)
  have ha := map_assign_eq_map s.m_assoc_store d.node w h.assoc_addr_nodup hmem
  simp only [lru_map.put, hg, lru_map.store, ha]

theorem put_hit_eq {s : lru_map K V} {l1 l2 : List (cell K V)} {d : cell K V}
    (h : Rep s (l1 ++ d :: l2)) :
    ∃ s0, Rep s0 (d :: (l1 ++ l2)) ∧ ∀ v : V, s.put d.key v
      = some (lru_map.mk s0.m_capacity s0.m_seq_store
          (s0.m_assoc_store.map (set_value d.node v))) := by
  obtain ⟨s0, hg, hr, -, -, -⟩ := get_hit h
  refine ⟨s0, hr, fun v => ?_⟩
  have hmem : d.node ∈ s0.m_assoc_store.map map_node.addr :=
    hr.assoc_addr.mem_iff.mpr (by simp)
  have ha := map_assign_eq_map s0.m_assoc_store d.node v hr.assoc_addr_nodup hmem
  simp only [lru_map.put, hg, lru_map.store, ha]

theorem put_push_eq {s : lru_map K V} {l : List (cell K V)} (h : Rep s l) {k : K}
    (hk : k ∉ l.map cell.key) (hcap : l.length ≠ s.m_capacity) (v : V) :
    s.put k v = some (lru_map.mk s.m_capacity
      (seq_node_t.mk (fresh_addr (s.m_seq_store.map seq_node_t.addr))
        (some (fresh_addr (s.m_assoc_store.map map_node.addr))) :: s.m_seq_store)
      (map_node.mk (fresh_addr (s.m_assoc_store.map map_node.addr)) k
        (assoc_node_t.mk v (some (fresh_addr (s.m_seq_store.map seq_node_t.addr))))
        :: s.m_assoc_store)) := by
  have hg := get_miss h hk
  have hf := h.find_miss hk
  simp only [lru_map.put, hg]
  rw [if_neg (by rw [h.length_assoc]; exact hcap)]
  simp only [map_emplace, map_insert, hf, push_front, set_front_assoc_iter, seq_begin]

theorem put_evict_eq {s : lru_map K V} {l1 : List (cell K V)} {c : cell K V}
    (h : Rep s (l1 ++ [c])) {k : K}
    (hk : k ∉ (l1 ++ [c]).map cell.key) (hcap : (l1 ++ [c]).length = s.m_capacity) :
    ∃ r : List (map_node K V), r.Perm (l1.map cell.assoc) ∧
      ∀ v : V, s.put k v = some (lru_map.mk s.m_capacity (c.seq :: l1.map cell.seq)
        (map_node.mk c.node k (assoc_node_t.mk v (some c.slot)) :: r)) := by
  have hg := get_miss h hk
  have hnot : c.slot ∉ l1.map cell.slot := by
    have := h.slots
    rw [List.map_append] at this
    intro hm
    exact (List.nodup_append.mp this).2.2 hm (by simp)
  have hreloc : (if s.m_seq_store.length > 1
        then splice_front s.m_seq_store (seq_last s.m_seq_store)
        else some s.m_seq_store) = some (c.seq :: l1.map cell.seq) := by
    split
    · rw [h.seq, seq_last_cells]
      simp only [splice_front, seq_unlink_cells l1 [] c hnot, List.append_nil]
    · rename_i hlen
      rw [h.length_seq] at hlen
      cases l1 with
      | nil => rw [h.seq]; rfl
      | cons d r => simp at hlen
  obtain ⟨r, hx, hp⟩ := map_unlink_perm s.m_assoc_store c.assoc h.assoc_addr_nodup
    (h.mem_assoc (by simp))
  have hpr : r.Perm (l1.map cell.assoc) := by
    have h1 : (c.assoc :: r).Perm (c.assoc :: l1.map cell.assoc) := by
      refine hp.symm.trans (h.assoc.trans ?_)
      rw [List.map_append]
      exact List.perm_append_comm
    exact h1.cons_inv
  have hfr : map_find r k = none := by
    apply map_find_eq_none
    intro n hn e
    apply hk
    rw [← e]
    have : n ∈ s.m_assoc_store := hp.mem_iff.mpr (List.mem_cons_of_mem _ hn)
    exact h.assoc_first.mem_iff.mp (List.mem_map_of_mem _ this)
  refine ⟨r, hpr, fun v => ?_⟩
  simp only [lru_map.put, hg]
  rw [if_pos (by rw [h.length_assoc]; exact hcap)]
  simp only [lru_map.evict_put, hreloc]
  have e1 : c.seq.m_assoc_iter = some c.node := rfl
  have e2 : c.assoc.addr = c.node := rfl
  simp only [e1, map_extract]
  rw [← e2, hx]
  simp only [map_insert, hfr, set_front_assoc_iter, seq_begin]
  rfl

theorem put_overwrite {s : lru_map K V} {l : List (cell K V)} (h : Rep s l)
    (hc : 0 < s.m_capacity) (k : K) (v : V) :
    ∃ s1 c1 l1, s.put k v = some s1 ∧ Rep s1 (c1 :: l1) ∧ c1.key = k ∧
      ∀ w : V, s.put k w = some (lru_map.mk s1.m_capacity s1.m_seq_store
        (s1.m_assoc_store.map (set_value c1.node w))) := by
  by_cases hk : k ∈ l.map cell.key
  · obtain ⟨l1, d, l2, rfl, rfl⟩ := mem_keys_split hk
    obtain ⟨s0, hr0, hput⟩ := put_hit_eq h
    obtain ⟨s1, hp1, hr1, -⟩ := put_hit h v
    refine ⟨s1, _, _, hp1, hr1, rfl, fun w => ?_⟩
    rw [hput v] at hp1
    cases hp1
    rw [hput w]
    simp only [List.map_map, Function.comp_def, set_value_twice]
  · by_cases hfull : l.length = s.m_capacity
    · have hne : l ≠ [] := by
        intro e
        rw [e] at hfull
        simp only [List.length_nil] at hfull
        omega
      obtain ⟨l1, d, rfl⟩ := exists_concat hne
      obtain ⟨r, hpr, hput⟩ := put_evict_eq h hk hfull
      obtain ⟨s1, hp1, hr1, -⟩ := put_evict h v hk hfull
      refine ⟨s1, _, _, hp1, hr1, rfl, fun w => ?_⟩
      rw [hput v] at hp1
      cases hp1
      rw [hput w]
      have hnot : d.node ∉ r.map map_node.addr := by
        intro hm
        have hm2 : d.node ∈ (l1.map cell.assoc).map map_node.addr :=
          (hpr.map map_node.addr).mem_iff.mp hm
        have hn := h.nodes
        rw [List.map_append, List.nodup_append] at hn
        have hm3 : d.node ∈ l1.map cell.node := by
          simpa [List.map_map, Function.comp_def, cell.assoc] using hm2
        exact hn.2.2 hm3 (by simp)
      simp only [List.map_cons, map_set_value_of_not_mem d.node w r hnot]
      simp [set_value]
    · obtain ⟨s1, a, b, hp1, hr1, -⟩ := put_push h v hk hfull
      refine ⟨s1, _, _, hp1, hr1, rfl, fun w => ?_⟩
      rw [put_push_eq h hk hfull v] at hp1
      cases hp1
      have hseq := hr1.seq
      simp only [List.map_cons, List.cons.injEq, cell.seq, seq_node_t.mk.injEq,
        Option.some.injEq] at hseq
      obtain ⟨⟨-, hb⟩, -⟩ := hseq
      subst hb
      rw [put_push_eq h hk hfull w]
      simp only [List.map_cons,
        map_set_value_of_not_mem _ w s.m_assoc_store (fresh_addr_not_mem _)]
      simp [set_value]

/-! ## The claims -/

/-- C1: on a cache constructed with a positive capacity `c`, every sequence of
`put` and `get` calls runs to completion, and after each call (after the first
`n` calls, for every `n`) the number of live entries, counted in the
associative store and in the recency list alike, is at most `c`. -/
theorem capacity_bound (c : Nat) (hc : 0 < c) (ops : List (op K V)) (n : Nat) :
    ∃ s, run (lru_map.new c) (ops.take n) = some s ∧
      s.m_assoc_store.length ≤ c ∧ s.m_seq_store.length ≤ c := by
  obtain ⟨s, hs, hr⟩ := Reachable.run_total hc (ops.take n) (lru_map.new c) Reachable.init
  obtain ⟨l, hrep, -, hl⟩ := hr.rep
  exact ⟨s, hs, by rw [hrep.length_assoc]; exact hl, by rw [hrep.length_seq]; exact hl⟩

theorem capacity_bound_witness :
    0 < 2 ∧ ∃ s, run (lru_map.new 2)
        ([op.put 1 10, op.put 2 20, op.get 1, op.put 3 30, op.put 4 40].take 4) = some s ∧
      s.m_assoc_store.length ≤ 2 ∧ s.m_seq_store.length ≤ 2 :=
  ⟨by decide, capacity_bound 2 (by decide)
    [op.put 1 10, op.put 2 20, op.get 1, op.put 3 30, op.put 4 40] 4⟩

/-- C2: in every state a cache of positive capacity reaches, `put k v`
succeeds and a `get k` right after it returns a non-null pointer through which
the value `v` is read; this covers the three branches of `put` (key absent
with room left, key absent with the cache full, key present). -/
theorem get_after_put (c : Nat) (hc : 0 < c) (s : lru_map K V) (hr : Reachable c s)
    (k : K) (v : V) :
    ∃ s1 a s2, s.put k v = some s1 ∧ s1.get k = some (some a, s2) ∧
      s2.load (some a) = some v := by
  obtain ⟨l, hrep, hcap, -⟩ := hr.rep
  obtain ⟨s1, c1, l1, hp, hr1, hk, hv, -, -⟩ := put_spec hrep (by omega) k v
  obtain ⟨s2, hg, hr2, -, -, -⟩ := @get_hit K V _ s1 [] l1 c1 hr1
  refine ⟨s1, c1.node, s2, hp, by rw [← hk]; exact hg, ?_⟩
  simp only [lru_map.load, hr2.deref (List.mem_cons_self _ _)]
  rw [← hv]
  rfl

theorem get_after_put_witness :
    0 < 1 ∧ Reachable 1 (lru_map.new 1 : lru_map Nat Nat) ∧
      ∃ s1 a s2, (lru_map.new 1 : lru_map Nat Nat).put 7 70 = some s1 ∧
        s1.get 7 = some (some a, s2) ∧ s2.load (some a) = some 70 :=
  ⟨by decide, Reachable.init, get_after_put 1 (by decide) _ Reachable.init 7 70⟩

/-- C3: in a reachable state of a cache of capacity `c ≥ 1` that is full
(entry count equal to the capacity) and whose recency sequence is `es`, `put`
of a key `k` that is not present succeeds and leaves the sequence
`(k, v)` followed by `es` without its last entry; `es` is not empty, and a
`get` of the key of that last entry (the least recently used one) now returns
`nullptr` and changes nothing. -/
theorem put_full_evicts_tail (c : Nat) (hc : 1 ≤ c) (s : lru_map K V) (hr : Reachable c s)
    (es : List (K × V)) (hes : s.entries = some es)
    (hfull : s.m_assoc_store.length = s.m_capacity)
    (k : K) (v : V) (hk : s.contains k = false) :
    ∃ s1, s.put k v = some s1 ∧ s1.entries = some ((k, v) :: es.dropLast) ∧
      ∃ e, es = es.dropLast ++ [e] ∧ s1.contains e.1 = false ∧
        s1.get e.1 = some (none, s1) := by
  obtain ⟨l, hrep, hcap, -⟩ := hr.rep
  obtain ⟨rfl, hkeys, hnd⟩ := hrep.entries_eq hes
  have hk1 := hrep.not_contains hk
  obtain ⟨s1, c1, l1, hp, hr1, hck, hcv, -, hkv⟩ := put_spec hrep (by omega) k v
  have hlen : l.length = s.m_capacity := by rw [← hrep.length_assoc]; exact hfull
  unfold put_entries at hkv
  rw [map_kv_fst, if_neg hk1, List.length_map, if_pos hlen] at hkv
  have hne : l.map cell.kv ≠ [] := by
    intro e
    have := congrArg List.length e
    simp only [List.length_map, List.length_nil] at this
    omega
  have hsplit := (List.dropLast_append_getLast hne).symm
  have hmiss : ((l.map cell.kv).getLast hne).1 ∉ (c1 :: l1).map cell.key := by
    rw [← map_kv_fst, hkv]
    simp only [List.map_cons, List.mem_cons, not_or]
    constructor
    · intro e
      apply hk1
      rw [← map_kv_fst, ← e]
      exact List.mem_map_of_mem _ (List.getLast_mem hne)
    · intro hm
      rw [hsplit, List.map_append] at hnd
      exact (List.nodup_append.mp hnd).2.2 (by simpa using hm) (by simp)
  refine ⟨s1, hp, by rw [hr1.entries, hkv], (l.map cell.kv).getLast hne, hsplit, ?_,
    get_miss hr1 hmiss⟩
  cases hcon : s1.contains ((l.map cell.kv).getLast hne).1 with
  | false => rfl
  | true => exact absurd ((hr1.contains_iff _).mp hcon) hmiss

theorem put_full_evicts_tail_witness :
    1 ≤ 2 ∧ Reachable 2 state_two ∧
      ∃ s1, state_two.put 3 30 = some s1 ∧
        s1.entries = some ((3, 30) :: [(2, 20), (1, 10)].dropLast) ∧
        ∃ e, [(2, 20), (1, 10)] = [(2, 20), (1, 10)].dropLast ++ [e] ∧
          s1.contains e.1 = false ∧ s1.get e.1 = some (none, s1) :=
  ⟨by decide, reachable_state_two,
    put_full_evicts_tail 2 (by decide) state_two reachable_state_two
      [(2, 20), (1, 10)] rfl rfl 3 30 rfl⟩

/-- C4: after every sequence of `put` and `get` calls on a new cache of
positive capacity, the keys of the recency sequence, in the order the debug
dump prints them, are exactly the live keys, every one of them has been
touched, and they stand in strictly decreasing order of the time of their
last touch (a touch of `k` is a `put` of `k` or a `get` of `k` that finds
it): the first key is the live key touched last, the last key the live key
touched longest ago. -/
theorem recency_order (c : Nat) (hc : 0 < c) (ops : List (op K V)) :
    ∃ s es, run (lru_map.new c) ops = some s ∧ s.entries = some es ∧
      (∀ k, k ∈ es.map Prod.fst ↔ s.contains k = true) ∧
      (es.map Prod.fst).Pairwise (fun a b => last_touch c ops b < last_touch c ops a) ∧
      ∀ k ∈ es.map Prod.fst, 0 < last_touch c ops k := by
  obtain ⟨s, l, hrun, hrep, -, -, hpw, hpos⟩ := recency_invariant c hc ops
  refine ⟨s, l.map cell.kv, hrun, hrep.entries, ?_, ?_, ?_⟩
  · intro k
    rw [map_kv_fst]
    exact (hrep.contains_iff k).symm
  · rw [map_kv_fst]; exact hpw
  · rw [map_kv_fst]; exact hpos

theorem recency_order_witness :
    0 < 2 ∧ ∃ (s : lru_map Nat Nat) (es : List (Nat × Nat)),
      run (lru_map.new 2) [op.put 1 10, op.put 2 20, op.get 1, op.get 9, op.put 3 30] = some s ∧
      s.entries = some es ∧
      (∀ k, k ∈ es.map Prod.fst ↔ s.contains k = true) ∧
      (es.map Prod.fst).Pairwise (fun a b =>
        last_touch 2 [op.put 1 10, op.put 2 20, op.get 1, op.get 9, op.put 3 30] b
          < last_touch 2 [op.put 1 10, op.put 2 20, op.get 1, op.get 9, op.put 3 30] a) ∧
      ∀ k ∈ es.map Prod.fst,
        0 < last_touch 2 [op.put 1 10, op.put 2 20, op.get 1, op.get 9, op.put 3 30] k :=
  ⟨by decide, recency_order 2 (by decide)
    [op.put 1 10, op.put 2 20, op.get 1, op.get 9, op.put 3 30]⟩

/-- C5: in a reachable state with recency sequence `es`, a key `k` that is
present occupies one position of `es`, say `es = es1 ++ (k, v) :: es2`; then
`get k` returns a non-null pointer through which `v` is read, and afterwards
the recency sequence is `(k, v)` followed by the other entries in their
previous order (`es1 ++ es2`), with both stores as long as before. -/
theorem get_present (c : Nat) (s : lru_map K V) (hr : Reachable c s)
    (es : List (K × V)) (hes : s.entries = some es) (k : K) (hk : s.contains k = true) :
    ∃ es1 v es2 a s1, es = es1 ++ (k, v) :: es2 ∧
      s.get k = some (some a, s1) ∧ s1.load (some a) = some v ∧
      s1.entries = some ((k, v) :: (es1 ++ es2)) ∧
      s1.m_assoc_store.length = s.m_assoc_store.length ∧
      s1.m_seq_store.length = s.m_seq_store.length := by
  obtain ⟨l, hrep, -, -⟩ := hr.rep
  obtain ⟨rfl, -, -⟩ := hrep.entries_eq hes
  obtain ⟨l1, d, l2, rfl, rfl⟩ := hrep.split_of_contains hk
  obtain ⟨s1, hg, hr1, -, hassoc, -⟩ := get_hit hrep
  refine ⟨l1.map cell.kv, d.val, l2.map cell.kv, d.node, s1, by simp [cell.kv], hg, ?_, ?_, ?_, ?_⟩
  · simp only [lru_map.load, hr1.deref (List.mem_cons_self _ _)]
    rfl
  · rw [hr1.entries]
    simp [cell.kv]
  · rw [hassoc]
  · rw [hr1.length_seq, hrep.length_seq]
    simp only [List.length_cons, List.length_append]
    omega

theorem get_present_witness :
    Reachable 2 state_two ∧
      ∃ es1 v es2 a s1, [(2, 20), (1, 10)] = es1 ++ (1, v) :: es2 ∧
        state_two.get 1
          = some (some a, s1) ∧
        s1.load (some a) = some v ∧ s1.entries = some ((1, v) :: (es1 ++ es2)) ∧
        s1.m_assoc_store.length = 2 ∧ s1.m_seq_store.length = 2 :=
  ⟨reachable_state_two,
    get_present 2 _ (reachable_state_two)
      [(2, 20), (1, 10)] rfl 1 rfl⟩

/-- C6: in every state, reachable or not, a `get` of a key that is not present
returns `nullptr` and leaves the whole state as it was, so the debug dump,
a function of the state, is the same before and after. -/
theorem get_absent (s : lru_map K V) (k : K) (hk : s.contains k = false) :
    s.get k = some (none, s) := by
  unfold lru_map.contains at hk
  cases hf : map_find s.m_assoc_store k with
  | none => simp only [lru_map.get, hf]
  | some x => rw [hf] at hk; cases hk

theorem get_absent_witness :
    state_one.contains 99 = false ∧
      state_one.get 99
        = some (none, state_one) :=
  ⟨rfl, get_absent _ 99 rfl⟩

/-- C7: in a reachable state with recency sequence `es`, a key `k` that is
present occupies one position of `es`, say `es = es1 ++ (k, v0) :: es2`; then
`put k v` succeeds and leaves the sequence `(k, v)` followed by `es1 ++ es2`:
the entry of `k` holds `v` and is at the front, the other entries keep their
keys, values and order, and both stores are as long as before, full or not. -/
theorem put_present (c : Nat) (s : lru_map K V) (hr : Reachable c s)
    (es : List (K × V)) (hes : s.entries = some es) (k : K) (v : V)
    (hk : s.contains k = true) :
    ∃ es1 v0 es2 s1, es = es1 ++ (k, v0) :: es2 ∧ s.put k v = some s1 ∧
      s1.entries = some ((k, v) :: (es1 ++ es2)) ∧
      s1.m_assoc_store.length = s.m_assoc_store.length ∧
      s1.m_seq_store.length = s.m_seq_store.length := by
  obtain ⟨l, hrep, -, -⟩ := hr.rep
  obtain ⟨rfl, -, -⟩ := hrep.entries_eq hes
  obtain ⟨l1, d, l2, rfl, rfl⟩ := hrep.split_of_contains hk
  obtain ⟨s1, hp, hr1, -⟩ := put_hit hrep v
  refine ⟨l1.map cell.kv, d.val, l2.map cell.kv, s1, by simp [cell.kv], hp, ?_, ?_, ?_⟩
  · rw [hr1.entries]
    simp [cell.kv]
  · rw [hr1.length_assoc, hrep.length_assoc]
    simp only [List.length_cons, List.length_append]
    omega
  · rw [hr1.length_seq, hrep.length_seq]
    simp only [List.length_cons, List.length_append]
    omega

theorem put_present_witness :
    Reachable 2 state_two ∧
      ∃ es1 v0 es2 s1, [(2, 20), (1, 10)] = es1 ++ (1, v0) :: es2 ∧
        state_two.put 1 11
          = some s1 ∧
        s1.entries = some ((1, 11) :: (es1 ++ es2)) ∧
        s1.m_assoc_store.length = 2 ∧ s1.m_seq_store.length = 2 :=
  ⟨reachable_state_two,
    put_present 2 _ (reachable_state_two)
      [(2, 20), (1, 10)] rfl 1 11 rfl⟩

/-- C8: in a reachable state with fewer entries than the capacity and recency
sequence `es`, `put` of a key `k` that is not present succeeds and leaves the
sequence `(k, v)` followed by the whole of `es`; both stores grow by exactly
one node. -/
theorem put_absent_room (c : Nat) (s : lru_map K V) (hr : Reachable c s)
    (es : List (K × V)) (hes : s.entries = some es)
    (hroom : s.m_assoc_store.length < s.m_capacity)
    (k : K) (v : V) (hk : s.contains k = false) :
    ∃ s1, s.put k v = some s1 ∧ s1.entries = some ((k, v) :: es) ∧
      s1.m_assoc_store.length = s.m_assoc_store.length + 1 ∧
      s1.m_seq_store.length = s.m_seq_store.length + 1 := by
  obtain ⟨l, hrep, -, -⟩ := hr.rep
  obtain ⟨rfl, -, -⟩ := hrep.entries_eq hes
  have hk1 := hrep.not_contains hk
  have hlen : l.length ≠ s.m_capacity := by rw [← hrep.length_assoc]; omega
  obtain ⟨s1, a, b, hp, hr1, -⟩ := put_push hrep v hk1 hlen
  refine ⟨s1, hp, ?_, ?_, ?_⟩
  · rw [hr1.entries]
    rfl
  · rw [hr1.length_assoc, hrep.length_assoc]
    rfl
  · rw [hr1.length_seq, hrep.length_seq]
    rfl

theorem put_absent_room_witness :
    Reachable 2 state_one ∧
      ∃ s1, state_one.put 2 20 = some s1 ∧
        s1.entries = some ((2, 20) :: [(1, 10)]) ∧
        s1.m_assoc_store.length = 1 + 1 ∧ s1.m_seq_store.length = 1 + 1 :=
  ⟨reachable_state_one,
    put_absent_room 2 _ (reachable_state_one)
      [(1, 10)] rfl (by decide) 2 20 rfl⟩

/-- C9: in every state reachable from a new cache the two stores are in
bijection: they have the same number of nodes; list nodes have pairwise
distinct addresses, map nodes have pairwise distinct addresses and pairwise
distinct keys; the traversal of the slots reads pairwise distinct keys; the
`m_assoc_iter` of every slot designates a node of the associative store whose
`m_seq_iter` designates that slot; and every node of the associative store is
designated by the `m_assoc_iter` of exactly one slot. -/
theorem stores_in_bijection (c : Nat) (s : lru_map K V) (hr : Reachable c s) :
    s.m_seq_store.length = s.m_assoc_store.length ∧
    (s.m_seq_store.map seq_node_t.addr).Nodup ∧
    (s.m_assoc_store.map map_node.addr).Nodup ∧
    (s.m_assoc_store.map map_node.first).Nodup ∧
    (∃ es, s.entries = some es ∧ (es.map Prod.fst).Nodup) ∧
    (∀ x ∈ s.m_seq_store, ∃ n ∈ s.m_assoc_store,
      map_deref s.m_assoc_store x.m_assoc_iter = some n ∧
      n.second.m_seq_iter = some x.addr) ∧
    (∀ n ∈ s.m_assoc_store, ∃ x ∈ s.m_seq_store,
      x.m_assoc_iter = some n.addr ∧
      ∀ y ∈ s.m_seq_store, y.m_assoc_iter = some n.addr → y = x) := by
  obtain ⟨l, h, -, -⟩ := hr.rep
  refine ⟨by rw [h.length_seq, h.length_assoc], by rw [h.seq_addr]; exact h.slots,
    h.assoc_addr_nodup, h.assoc_first_nodup,
    ⟨_, h.entries, by rw [map_kv_fst]; exact h.keys⟩, ?_, ?_⟩
  · intro x hx
    rw [h.seq] at hx
    obtain ⟨d, hd, rfl⟩ := List.mem_map.mp hx
    exact ⟨d.assoc, h.mem_assoc hd, h.deref hd, rfl⟩
  · intro n hn
    obtain ⟨d, hd, rfl⟩ := List.mem_map.mp (h.assoc.mem_iff.mp hn)
    refine ⟨d.seq, by rw [h.seq]; exact List.mem_map_of_mem _ hd, rfl, ?_⟩
    intro y hy hyn
    rw [h.seq] at hy
    obtain ⟨d1, hd1, rfl⟩ := List.mem_map.mp hy
    have e : d1.node = d.node := by
      simpa [cell.seq, cell.assoc] using hyn
    rw [List.inj_on_of_nodup_map h.nodes hd1 hd e]

theorem stores_in_bijection_witness :
    Reachable 2 state_two ∧
    state_two.m_seq_store.length = state_two.m_assoc_store.length ∧
    (state_two.m_seq_store.map seq_node_t.addr).Nodup ∧
    (state_two.m_assoc_store.map map_node.addr).Nodup ∧
    (state_two.m_assoc_store.map map_node.first).Nodup ∧
    (∃ es, state_two.entries = some es ∧ (es.map Prod.fst).Nodup) ∧
    (∀ x ∈ state_two.m_seq_store, ∃ n ∈ state_two.m_assoc_store,
      map_deref state_two.m_assoc_store x.m_assoc_iter = some n ∧
      n.second.m_seq_iter = some x.addr) ∧
    (∀ n ∈ state_two.m_assoc_store, ∃ x ∈ state_two.m_seq_store,
      x.m_assoc_iter = some n.addr ∧
      ∀ y ∈ state_two.m_seq_store, y.m_assoc_iter = some n.addr → y = x) :=
  ⟨reachable_state_two, stores_in_bijection 2 state_two reachable_state_two⟩

omit [DecidableEq K] in
/-- C10: for every cache state the debug dump is the texts `{key,value}` of
the entries of the recency sequence, front to back, joined with a single `,`
(none before the first or after the last); it is undefined exactly when the
traversal dereferences an iterator that designates no node.  A cache with an
empty recency list dumps as the empty string.  The dump is a function of the
state alone and returns only the text, so producing it does not change the
state. -/
theorem dump_format (show_k : K → String) (show_v : V → String) (s : lru_map K V) :
    s.dump show_k show_v
        = s.entries.map (fun es => String.intercalate "," (es.map (render show_k show_v))) ∧
      ∀ (c : Nat) (m : List (map_node K V)),
        (lru_map.mk c [] m).dump show_k show_v = some "" := by
  refine ⟨?_, fun _ _ => rfl⟩
  unfold lru_map.dump lru_map.entries
  cases s.m_seq_store with
  | nil => rfl
  | cons x r =>
    simp only [lru_map.dump_loop, entries_of]
    cases hd : map_deref s.m_assoc_store x.m_assoc_iter with
    | none => rfl
    | some n =>
      simp only [Bool.false_eq_true, if_false]
      rw [dump_loop_sep]
      cases entries_of s.m_assoc_store r with
      | none => rfl
      | some es =>
        simp only [Option.map_some', List.map_cons, String.intercalate, render,
          String.append_assoc, String.empty_append]

/-- C11: the node-reusing `lru_map` refines the naive cache of the
specification (state: the recency sequence alone; eviction erases the tail
entry and inserts a new entry at the front).  On a new cache of positive
capacity every sequence of `put` and `get` calls runs to completion and shows,
after each call, the same result (the value a `get` finds, or not found) and
the same front-to-back sequence of (key, value) pairs as the naive cache; and
whenever the sequences agree the debug dumps agree. -/
theorem refines_naive (c : Nat) (hc : 0 < c) (ops : List (op K V)) :
    observe (lru_map.new c) ops = some (naive_observe c [] ops) ∧
      ∀ (show_k : K → String) (show_v : V → String) (s : lru_map K V) (es : List (K × V)),
        s.entries = some es → s.dump show_k show_v = some (naive_dump show_k show_v es) :=
  ⟨observe_rep c hc ops (lru_map.new c) [] (Rep.new c) rfl (Nat.zero_le _),
    fun show_k show_v s es h => dump_of_entries show_k show_v s es h⟩

theorem refines_naive_witness :
    0 < 2 ∧
      (observe (lru_map.new 2 : lru_map Nat Nat)
          [op.put 1 10, op.put 2 20, op.get 1, op.put 3 30, op.get 2, op.put 1 11]
        = some (naive_observe 2 []
          [op.put 1 10, op.put 2 20, op.get 1, op.put 3 30, op.get 2, op.put 1 11]) ∧
      ∀ (show_k : Nat → String) (show_v : Nat → String) (s : lru_map Nat Nat)
        (es : List (Nat × Nat)),
        s.entries = some es → s.dump show_k show_v = some (naive_dump show_k show_v es)) :=
  ⟨by decide, refines_naive 2 (by decide)
    [op.put 1 10, op.put 2 20, op.get 1, op.put 3 30, op.get 2, op.put 1 11]⟩

/-- C12: in a reachable state of a cache of positive capacity every call
succeeds, and a key that is live before the call and not live after it is
lost only in one way: the call is a `put` of a key that was absent while the
cache was full, and the lost key is the key of the last entry of the recency
sequence.  No call decreases the number of live entries, and a full cache is
still full after the call. -/
theorem entry_lost_only_by_eviction (c : Nat) (hc : 0 < c) (s : lru_map K V)
    (hr : Reachable c s) (o : op K V) :
    ∃ s1, step s o = some s1 ∧
      (∀ x, s.contains x = true → s1.contains x = false →
        ∃ k v es e, o = op.put k v ∧ s.contains k = false ∧
          s.m_assoc_store.length = s.m_capacity ∧ s.entries = some (es ++ [e]) ∧ e.1 = x) ∧
      s.m_assoc_store.length ≤ s1.m_assoc_store.length ∧
      (s.m_assoc_store.length = s.m_capacity →
        s1.m_assoc_store.length = s1.m_capacity) := by
  obtain ⟨l, h, hcap, hl⟩ := hr.rep
  cases o with
  | get k =>
    by_cases hk : k ∈ l.map cell.key
    · obtain ⟨l1, d, l2, rfl, rfl⟩ := mem_keys_split hk
      obtain ⟨s1, hg, hr1, hcap1, hassoc, -⟩ := get_hit h
      refine ⟨s1, by simp only [step, hg], ?_, by rw [hassoc], by rw [hassoc, hcap1]; exact id⟩
      intro x hx hx1
      exfalso
      have hm := (h.contains_iff x).mp hx
      have : x ∈ (d :: (l1 ++ l2)).map cell.key := by
        simp only [List.map_append, List.map_cons, List.mem_append, List.mem_cons] at hm ⊢
        tauto
      rw [(hr1.contains_iff x).mpr this] at hx1
      cases hx1
    · have hg := get_miss h hk
      refine ⟨s, by simp only [step, hg], ?_, Nat.le_refl _, id⟩
      intro x hx hx1
      rw [hx] at hx1
      cases hx1
  | put k v =>
    by_cases hk : k ∈ l.map cell.key
    · obtain ⟨l1, d, l2, rfl, rfl⟩ := mem_keys_split hk
      obtain ⟨s1, hp, hr1, hcap1⟩ := put_hit h v
      have hlen : s1.m_assoc_store.length = s.m_assoc_store.length := by
        rw [hr1.length_assoc, h.length_assoc]
        simp only [List.length_cons, List.length_append]
        omega
      refine ⟨s1, hp, ?_, by rw [hlen], by rw [hlen, hcap1]; exact id⟩
      intro x hx hx1
      exfalso
      have hm := (h.contains_iff x).mp hx
      have : x ∈ ({ d with val := v } :: (l1 ++ l2)).map cell.key := by
        simp only [List.map_append, List.map_cons, List.mem_append, List.mem_cons] at hm ⊢
        tauto
      rw [(hr1.contains_iff x).mpr this] at hx1
      cases hx1
    · by_cases hfull : l.length = s.m_capacity
      · have hne : l ≠ [] := by
          intro e
          rw [e] at hfull
          simp only [List.length_nil] at hfull
          omega
        obtain ⟨l1, d, rfl⟩ := exists_concat hne
        obtain ⟨s1, hp, hr1, hcap1⟩ := put_evict h v hk hfull
        have hlen : s1.m_assoc_store.length = s.m_assoc_store.length := by
          rw [hr1.length_assoc, h.length_assoc]
          simp only [List.length_cons, List.length_append, List.length_nil]
        refine ⟨s1, hp, ?_, by rw [hlen], by rw [hlen, hcap1]; exact id⟩
        intro x hx hx1
        refine ⟨k, v, l1.map cell.kv, d.kv, rfl, h.contains_false hk,
          by rw [h.length_assoc]; exact hfull, by rw [h.entries]; simp, ?_⟩
        have hm := (h.contains_iff x).mp hx
        simp only [List.map_append, List.map_cons, List.map_nil, List.mem_append,
          List.mem_singleton] at hm
        rcases hm with hm | hm
        · exfalso
          have : x ∈ ({ d with key := k, val := v } :: l1).map cell.key := by
            simp only [List.map_cons, List.mem_cons]
            exact Or.inr hm
          rw [(hr1.contains_iff x).mpr this] at hx1
          cases hx1
        · exact hm.symm
      · obtain ⟨s1, a, b, hp, hr1, hcap1⟩ := put_push h v hk hfull
        have hlen : s1.m_assoc_store.length = s.m_assoc_store.length + 1 := by
          rw [hr1.length_assoc, h.length_assoc]
          rfl
        refine ⟨s1, hp, ?_, by omega, ?_⟩
        · intro x hx hx1
          exfalso
          have hm := (h.contains_iff x).mp hx
          have : x ∈ ({ slot := a, node := b, key := k, val := v } :: l).map cell.key := by
            simp only [List.map_cons, List.mem_cons]
            exact Or.inr hm
          rw [(hr1.contains_iff x).mpr this] at hx1
          cases hx1
        · intro hf
          rw [h.length_assoc] at hf
          exact absurd hf hfull

theorem entry_lost_only_by_eviction_witness :
    0 < 2 ∧ Reachable 2 state_two ∧
      ∃ s1, step state_two (op.put 3 30) = some s1 ∧
        (∀ x, state_two.contains x = true → s1.contains x = false →
          ∃ k v es e, op.put 3 30 = op.put k v ∧ state_two.contains k = false ∧
            state_two.m_assoc_store.length = state_two.m_capacity ∧
            state_two.entries = some (es ++ [e]) ∧ e.1 = x) ∧
        state_two.m_assoc_store.length ≤ s1.m_assoc_store.length ∧
        (state_two.m_assoc_store.length = state_two.m_capacity →
          s1.m_assoc_store.length = s1.m_capacity) :=
  ⟨by decide, reachable_state_two,
    entry_lost_only_by_eviction 2 (by decide) state_two reachable_state_two (op.put 3 30)⟩

/-- C13: the constructor stores any capacity unchecked, 0 included.  In a
reachable state of a cache constructed with capacity `c`, `put` fails if and
only if `c = 0`.  When `c = 0` every `put` finds its key absent, finds the
entry count equal to the capacity and enters `evict_put` with an empty recency
list, whose `front()` it reads.  When `c ≥ 1` the eviction path (key absent,
entry count equal to the capacity) is entered only with a non-empty list. -/
theorem put_fails_iff_capacity_zero (c : Nat) (s : lru_map K V) (hr : Reachable c s)
    (k : K) (v : V) :
    (lru_map.new c : lru_map K V) = lru_map.mk c [] [] ∧
      (s.put k v = none ↔ c = 0) ∧
      (c = 0 → s.get k = some (none, s) ∧ s.m_assoc_store.length = s.m_capacity ∧
        s.m_seq_store = [] ∧ s.evict_put k v = none) ∧
      (1 ≤ c → ∀ s0, s.get k = some (none, s0) →
        s0.m_assoc_store.length = s0.m_capacity → s0.m_seq_store ≠ []) := by
  obtain ⟨l, h, hcap, hl⟩ := hr.rep
  refine ⟨rfl, ?_, ?_, ?_⟩
  · constructor
    · intro hp
      by_contra hc
      obtain ⟨s1, -, -, hp1, -⟩ := put_spec h (by omega) k v
      rw [hp] at hp1
      cases hp1
    · intro hc
      have hl0 : l = [] := List.length_eq_zero.mp (by omega)
      subst hl0
      exact put_zero h (by omega) k v
  · intro hc
    have hl0 : l = [] := List.length_eq_zero.mp (by omega)
    subst hl0
    have hs : s.m_seq_store = [] := h.seq
    refine ⟨get_miss h (by simp), by rw [h.length_assoc, hcap, hc]; rfl, hs, ?_⟩
    simp only [lru_map.evict_put, hs, List.length_nil]
    rfl
  · intro hc s0 hg hfull hempty
    by_cases hk : k ∈ l.map cell.key
    · obtain ⟨s1, c1, l1, hg1, -⟩ := get_spec_hit h hk
      rw [hg] at hg1
      cases hg1
    · have hg1 := get_miss h hk
      rw [hg] at hg1
      cases hg1
      have h1 := h.length_seq
      have h2 := h.length_assoc
      rw [hempty] at h1
      simp only [List.length_nil] at h1
      omega

theorem put_fails_iff_capacity_zero_witness :
    Reachable 0 (lru_map.new 0 : lru_map Nat Nat) ∧
      ((lru_map.new 0 : lru_map Nat Nat) = lru_map.mk 0 [] [] ∧
      ((lru_map.new 0 : lru_map Nat Nat).put 7 70 = none ↔ 0 = 0) ∧
      (0 = 0 → (lru_map.new 0 : lru_map Nat Nat).get 7 = some (none, lru_map.new 0) ∧
        (lru_map.new 0 : lru_map Nat Nat).m_assoc_store.length
          = (lru_map.new 0 : lru_map Nat Nat).m_capacity ∧
        (lru_map.new 0 : lru_map Nat Nat).m_seq_store = [] ∧
        (lru_map.new 0 : lru_map Nat Nat).evict_put 7 70 = none) ∧
      (1 ≤ 0 → ∀ s0, (lru_map.new 0 : lru_map Nat Nat).get 7 = some (none, s0) →
        s0.m_assoc_store.length = s0.m_capacity → s0.m_seq_store ≠ [])) :=
  ⟨Reachable.init, put_fails_iff_capacity_zero 0 (lru_map.new 0) Reachable.init 7 70⟩

/-- C14: in a reachable state of a cache of capacity 1 that holds the single
entry `(a, x)`, `put b y` with `b ≠ a` finds `b` absent and the cache full,
enters `evict_put` with a one-slot list, so that the relocation guarded by
`size() > 1` is skipped, and leaves exactly the entry `(b, y)`; `get a` then
returns `nullptr`.  And in every reachable state of a cache of capacity 1,
`put k v` leaves exactly the entry `(k, v)`. -/
theorem capacity_one_holds_last_put (s : lru_map K V) (hr : Reachable 1 s) :
    (∀ (a : K) (x : V) (b : K) (y : V), s.entries = some [(a, x)] → b ≠ a →
      s.get b = some (none, s) ∧ s.m_assoc_store.length = s.m_capacity ∧
      ¬ (s.m_seq_store.length > 1) ∧
      ∃ s1, s.put b y = some s1 ∧ s1.entries = some [(b, y)] ∧
        s1.get a = some (none, s1)) ∧
    (∀ (k : K) (v : V), ∃ s1, s.put k v = some s1 ∧ s1.entries = some [(k, v)]) := by
  obtain ⟨l, h, hcap, hl⟩ := hr.rep
  constructor
  · intro a x b y hes hba
    obtain ⟨he, hkeys, -⟩ := h.entries_eq hes
    have hlen : l.length = 1 := by
      have := congrArg List.length he
      simp only [List.length_cons, List.length_nil, List.length_map] at this
      omega
    have hb : b ∉ l.map cell.key := by
      rw [← hkeys]
      simpa using hba
    obtain ⟨s1, c1, hp, hr1, hk, hv⟩ := put_capacity_one h hcap hl b y
    refine ⟨get_miss h hb, by rw [h.length_assoc, hcap, hlen], by rw [h.length_seq]; omega,
      s1, hp, ?_, ?_⟩
    · rw [hr1.entries, ← hk, ← hv]
      rfl
    · apply get_miss hr1
      simp only [List.map_cons, List.map_nil, List.mem_singleton, hk]
      exact fun e => hba e.symm
  · intro k v
    obtain ⟨s1, c1, hp, hr1, hk, hv⟩ := put_capacity_one h hcap hl k v
    refine ⟨s1, hp, ?_⟩
    rw [hr1.entries, ← hk, ← hv]
    rfl

theorem capacity_one_holds_last_put_witness :
    Reachable 1 state_single ∧
    ((∀ (a : Nat) (x : Nat) (b : Nat) (y : Nat), state_single.entries = some [(a, x)] → b ≠ a →
      state_single.get b = some (none, state_single) ∧
      state_single.m_assoc_store.length = state_single.m_capacity ∧
      ¬ (state_single.m_seq_store.length > 1) ∧
      ∃ s1, state_single.put b y = some s1 ∧ s1.entries = some [(b, y)] ∧
        s1.get a = some (none, s1)) ∧
    (∀ (k : Nat) (v : Nat), ∃ s1, state_single.put k v = some s1 ∧
      s1.entries = some [(k, v)])) :=
  ⟨reachable_state_single, capacity_one_holds_last_put state_single reachable_state_single⟩

/-- C15: on a new cache of capacity `c ≥ 1`, `put` of the pairs of a list with
pairwise distinct keys, in order, runs to completion and leaves as recency
sequence the last `min n c` pairs in reverse insertion order (the first `c`
pairs of the reversed list); the keys of the first `n - min n c` pairs are not
found. -/
theorem puts_of_distinct_keys (c : Nat) (hc : 1 ≤ c) (kvs : List (K × V))
    (hd : (kvs.map Prod.fst).Nodup) :
    ∃ s, run (lru_map.new c) (kvs.map (fun p => op.put p.1 p.2)) = some s ∧
      s.entries = some (kvs.reverse.take c) ∧
      (kvs.reverse.take c).length = min kvs.length c ∧
      ∀ p ∈ kvs.take (kvs.length - min kvs.length c),
        s.contains p.1 = false ∧ s.get p.1 = some (none, s) := by
  obtain ⟨s, l, hrun, hrep, -, hkv⟩ := puts_invariant c hc kvs hd
  refine ⟨s, hrun, by rw [hrep.entries, hkv], ?_, ?_⟩
  · rw [List.length_take, List.length_reverse, Nat.min_comm]
  · intro p hp
    have hsub : kvs.length - min kvs.length c = kvs.length - c := by omega
    rw [hsub] at hp
    have hmiss : p.1 ∉ l.map cell.key := by
      rw [← map_kv_fst, hkv, List.take_reverse]
      intro hm
      obtain ⟨q, hq, hq1⟩ := List.mem_map.mp hm
      have hq2 : q ∈ kvs.drop (kvs.length - c) := List.mem_reverse.mp hq
      have hsplit := List.take_append_drop (kvs.length - c) kvs
      rw [← hsplit, List.map_append, List.nodup_append] at hd
      exact hd.2.2 (List.mem_map_of_mem Prod.fst hp) (by rw [← hq1]; exact List.mem_map_of_mem Prod.fst hq2)
    exact ⟨hrep.contains_false hmiss, get_miss hrep hmiss⟩

theorem puts_of_distinct_keys_witness :
    1 ≤ 4 ∧ ([(10, 100), (20, 200), (30, 300), (40, 400), (50, 500)].map Prod.fst).Nodup ∧
      ∃ s, run (lru_map.new 4)
          ([(10, 100), (20, 200), (30, 300), (40, 400), (50, 500)].map
            (fun p => op.put p.1 p.2)) = some s ∧
        s.entries = some ([(10, 100), (20, 200), (30, 300), (40, 400), (50, 500)].reverse.take 4) ∧
        ([(10, 100), (20, 200), (30, 300), (40, 400), (50, 500)].reverse.take 4).length
          = min [(10, 100), (20, 200), (30, 300), (40, 400), (50, 500)].length 4 ∧
        ∀ p ∈ [(10, 100), (20, 200), (30, 300), (40, 400), (50, 500)].take
            ([(10, 100), (20, 200), (30, 300), (40, 400), (50, 500)].length
              - min [(10, 100), (20, 200), (30, 300), (40, 400), (50, 500)].length 4),
          s.contains p.1 = false ∧ s.get p.1 = some (none, s) :=
  ⟨by decide, by decide,
    puts_of_distinct_keys 4 (by decide) [(10, 100), (20, 200), (30, 300), (40, 400), (50, 500)]
      (by decide)⟩

/-- C16: in every reachable state, a `get` of the key at the front of the
recency sequence returns a non-null pointer and leaves the state unchanged;
and for every key, `get` succeeds, and a second `get` of the same key right
after the first returns the same pointer (so the same value, or `nullptr`
again) and leaves the state the first call left. -/
theorem get_idempotent (c : Nat) (s : lru_map K V) (hr : Reachable c s) (k : K) :
    (∀ (v : V) (es : List (K × V)), s.entries = some ((k, v) :: es) →
      ∃ a, s.get k = some (some a, s) ∧ s.load (some a) = some v) ∧
    ∃ e s1 res, s.get k = some (e, s1) ∧ get_result s1 e = some res ∧
      s1.get k = some (e, s1) := by
  obtain ⟨l, h, -, -⟩ := hr.rep
  constructor
  · intro v es hes
    obtain ⟨he, -, -⟩ := h.entries_eq hes
    cases l with
    | nil => cases he
    | cons d l1 =>
      simp only [List.map_cons, List.cons.injEq] at he
      have hk : d.key = k := (congrArg Prod.fst he.1).symm
      have hv : d.val = v := (congrArg Prod.snd he.1).symm
      obtain ⟨s1, hg, -, -, -, hs⟩ := @get_hit K V _ s [] l1 d h
      rw [hs rfl, hk] at hg
      refine ⟨d.node, hg, ?_⟩
      simp only [lru_map.load, h.deref (List.mem_cons_self _ _)]
      rw [← hv]
      rfl
  · by_cases hk : k ∈ l.map cell.key
    · obtain ⟨l1, d, l2, rfl, rfl⟩ := mem_keys_split hk
      obtain ⟨s1, hg, hr1, -, -, -⟩ := get_hit h
      obtain ⟨s2, hg2, -, -, -, hs⟩ := @get_hit K V _ s1 [] (l1 ++ l2) d hr1
      rw [hs rfl] at hg2
      refine ⟨some d.node, s1, some d.val, hg, ?_, hg2⟩
      simp only [get_result, lru_map.load, hr1.deref (List.mem_cons_self _ _)]
      rfl
    · have hg := get_miss h hk
      exact ⟨none, s, none, hg, rfl, hg⟩

theorem get_idempotent_witness :
    Reachable 2 state_two ∧
    ((∀ (v : Nat) (es : List (Nat × Nat)), state_two.entries = some ((2, v) :: es) →
      ∃ a, state_two.get 2 = some (some a, state_two) ∧ state_two.load (some a) = some v) ∧
    ∃ e s1 res, state_two.get 2 = some (e, s1) ∧ get_result s1 e = some res ∧
      s1.get 2 = some (e, s1)) :=
  ⟨reachable_state_two, get_idempotent 2 state_two reachable_state_two 2⟩

/-- C17: after every sequence `ops` of `put` and `get` calls on a new cache of
positive capacity (the pointers that `get` returns are not written through),
a `get k` succeeds, and when it returns a non-null pointer the value read
through it is the value of the most recent `put` of `k` in `ops`: never a
value stored under another key, never one that a later `put` of `k` has
overwritten. -/
theorem get_returns_last_put (c : Nat) (hc : 0 < c) (ops : List (op K V)) (k : K) :
    ∃ s e s1, run (lru_map.new c) ops = some s ∧ s.get k = some (e, s1) ∧
      ∀ a, e = some a → ∃ v, last_put ops k = some v ∧ s1.load (some a) = some v := by
  obtain ⟨s, l, hrun, hrep, -, -, hval⟩ := values_invariant c hc ops
  by_cases hk : k ∈ l.map cell.key
  · obtain ⟨s1, c1, l1, hg, hr1, hck, hmem, -⟩ := get_spec_hit hrep hk
    refine ⟨s, some c1.node, s1, hrun, hg, ?_⟩
    intro a ha
    cases ha
    refine ⟨c1.val, by rw [← hck]; exact hval c1 hmem, ?_⟩
    simp only [lru_map.load, hr1.deref (List.mem_cons_self _ _)]
    rfl
  · exact ⟨s, none, s, hrun, get_miss hrep hk, fun a ha => by cases ha⟩

theorem get_returns_last_put_witness :
    0 < 2 ∧ ∃ (s : lru_map Nat Nat) (e : Option Nat) (s1 : lru_map Nat Nat),
      run (lru_map.new 2) [op.put 1 10, op.put 2 20, op.put 1 11, op.get 2] = some s ∧
      s.get 1 = some (e, s1) ∧
      ∀ a, e = some a → ∃ v,
        last_put [op.put 1 10, op.put 2 20, op.put 1 11, op.get 2] 1 = some v ∧
        s1.load (some a) = some v :=
  ⟨by decide, get_returns_last_put 2 (by decide)
    [op.put 1 10, op.put 2 20, op.put 1 11, op.get 2] 1⟩

/-- C18: in a reachable state of a cache of capacity `c ≥ 1`, let a call
touch the key `k` (a `put` of `k`, or a `get` of `k` that finds it); the call
succeeds and leaves `k` at the front with some value `v0`, which is `v` when
the call is `put k v`.  Then every following sequence of calls on keys other
than `k` that touches fewer than `c` distinct keys runs to completion and
leaves `k` present, and a `get k` reads `v0`.  So a key is evicted only after
at least `c` distinct other keys have been touched since its last touch. -/
theorem survives_few_touches (c : Nat) (hc : 1 ≤ c) (s : lru_map K V) (hr : Reachable c s)
    (o0 : op K V) (k : K) (ht : touched s o0 = some k)
    (ops : List (op K V)) (hops : ∀ o ∈ ops, o.key ≠ k) :
    ∃ s1 v0 es, step s o0 = some s1 ∧ s1.entries = some ((k, v0) :: es) ∧
      (∀ v, o0 = op.put k v → v0 = v) ∧
      ((touched_keys s1 ops).dedup.length < c →
        ∃ s2 a s3, run s1 ops = some s2 ∧ s2.contains k = true ∧
          s2.get k = some (some a, s3) ∧ s3.load (some a) = some v0) := by
  obtain ⟨l, h, hcap, hl⟩ := hr.rep
  have key : ∃ s1 c1 l1, step s o0 = some s1 ∧ Rep s1 (c1 :: l1) ∧ c1.key = k ∧
      s1.m_capacity = c ∧ (c1 :: l1).length ≤ c ∧ (∀ v, o0 = op.put k v → c1.val = v) := by
    cases o0 with
    | put k0 v0 =>
      simp only [touched, Option.some.injEq] at ht
      subst ht
      obtain ⟨s1, c1, l1, hp, hr1, hk, hv, hcap1, hkv⟩ := put_spec h (by omega) k0 v0
      have hl1 := h.put_length (by omega) (by omega) k0 v0 hkv
      refine ⟨s1, c1, l1, hp, hr1, hk, hcap1.trans hcap, by omega, ?_⟩
      intro v e
      simp only [op.put.injEq] at e
      rw [hv, e.2]
    | get k0 =>
      by_cases hk0 : k0 ∈ l.map cell.key
      · obtain ⟨s1, c1, l1, hg, hr1, hck, -, hcap1, -, -, hlen⟩ := get_spec_hit h hk0
        simp only [touched, hg, Option.some.injEq] at ht
        subst ht
        exact ⟨s1, c1, l1, by simp only [step, hg], hr1, hck, hcap1.trans hcap,
          by simp only [List.length_cons]; omega, fun v e => by cases e⟩
      · have hg := get_miss h hk0
        simp only [touched, hg] at ht
        cases ht
  obtain ⟨s1, c1, l1, hstep, hr1, hk, hcap1, hl1, hv⟩ := key
  refine ⟨s1, c1.val, l1.map cell.kv, hstep, ?_, hv, ?_⟩
  · rw [hr1.entries, List.map_cons, ← hk]
    rfl
  · intro hfew
    have hf : front_keys_among k c1.val [] ((c1 :: l1).map cell.kv) :=
      ⟨[], l1.map cell.kv, by rw [List.map_cons, ← hk]; rfl, fun x hx => by cases hx⟩
    obtain ⟨s2, l2, seen2, hrun, hr2, hf2⟩ :=
      survives_aux c hc k c1.val ops s1 (c1 :: l1) [] hr1 hcap1 hl1 hf hops
        (by rw [List.nil_append]; exact hfew)
    obtain ⟨hcon, a, s3, hg, hload⟩ := front_keys_read hr2 hf2
    exact ⟨s2, a, s3, hrun, hcon, hg, hload⟩

theorem survives_few_touches_witness :
    1 ≤ 2 ∧ Reachable 2 state_one ∧ touched state_one (op.put 2 20) = some 2 ∧
      (∀ o ∈ [op.get 1, op.get 9, op.put 1 11, op.get 1], op.key o ≠ 2) ∧
      ∃ s1 v0 es, step state_one (op.put 2 20) = some s1 ∧
        s1.entries = some ((2, v0) :: es) ∧
        (∀ v, op.put 2 20 = op.put 2 v → v0 = v) ∧
        (touched_keys s1 [op.get 1, op.get 9, op.put 1 11, op.get 1]).dedup.length < 2 ∧
        ∃ s2 a s3, run s1 [op.get 1, op.get 9, op.put 1 11, op.get 1] = some s2 ∧
          s2.contains 2 = true ∧
          s2.get 2 = some (some a, s3) ∧ s3.load (some a) = some v0 := by
  obtain ⟨s1, v0, es, h1, h2, h3, h4⟩ :=
    survives_few_touches 2 (by decide) state_one reachable_state_one (op.put 2 20) 2 rfl
      [op.get 1, op.get 9, op.put 1 11, op.get 1] (by decide)
  have e : state_two = s1 :=
    Option.some.inj ((show step state_one (op.put 2 20) = some state_two from rfl).symm.trans h1)
  subst e
  exact ⟨by decide, reachable_state_one, rfl, by decide, state_two, v0, es, h1, h2, h3,
    by decide, h4 (by decide)⟩

/-- C19: in every reachable state of a cache of positive capacity, `put k v`
followed by `put k w` leaves exactly the state that `put k w` alone leaves:
same capacity, same recency list, same associative store.  The second `put`
finds the key present, so it evicts nothing and both stores keep their
sizes; and `put k v` a second time leaves the state of the first. -/
theorem put_twice_last_wins (c : Nat) (hc : 0 < c) (s : lru_map K V) (hr : Reachable c s)
    (k : K) (v w : V) :
    ∃ s1 s2, s.put k v = some s1 ∧ s1.put k w = some s2 ∧ s.put k w = some s2 ∧
      s1.contains k = true ∧
      s2.m_assoc_store.length = s1.m_assoc_store.length ∧
      s2.m_seq_store.length = s1.m_seq_store.length ∧
      s1.put k v = some s1 := by
  obtain ⟨l, h, hcap, -⟩ := hr.rep
  obtain ⟨s1, c1, l1, hp, hr1, hk, hw⟩ := put_overwrite h (by omega) k v
  have hagain := put_again hr1 w
  rw [hk] at hagain
  refine ⟨s1, _, hp, hagain, hw w, ?_, by simp only [List.length_map], rfl, ?_⟩
  · exact (hr1.contains_iff k).mpr (by simp [hk])
  · have hagain2 := put_again hr1 v
    rw [hk] at hagain2
    rw [hagain2, ← hw v, hp]

theorem put_twice_last_wins_witness :
    0 < 2 ∧ Reachable 2 state_two ∧
      ∃ s1 s2, state_two.put 3 30 = some s1 ∧ s1.put 3 31 = some s2 ∧
        state_two.put 3 31 = some s2 ∧ s1.contains 3 = true ∧
        s2.m_assoc_store.length = s1.m_assoc_store.length ∧
        s2.m_seq_store.length = s1.m_seq_store.length ∧
        s1.put 3 30 = some s1 :=
  ⟨by decide, reachable_state_two,
    put_twice_last_wins 2 (by decide) state_two reachable_state_two 3 30 31⟩

end LruCache
